import Mathlib

/-!
Verification development for the permutation-equivariant weight-sharing
layer system and R2D2 training step (src/pyhanabi/sym_utils.py and
src/pyhanabi/r2d2.py).

Numeric tensors are modelled over an abstract commutative ring (the code
computes with floating-point numbers; the algebraic claims under study are
exact, so the ring idealisation is the faithful shallow embedding), except
where a genuine division occurs (dueling mean, loss normalisation), which
is modelled over the rationals.  A tensor is modelled by its last dimension
(a list), or by a list of rows for two-dimensional [time, batch] data: all
torch operations used by the code act independently on leading dimensions.
Fallible torch operations (shape-checked matmul, narrow, in-place add)
return Option; a Python exception is modelled as none.
-/

namespace HanabiSAD

/-! ### Combinatorial core, from src/pyhanabi/sym_utils.py -/

/-- Number of halvings needed to bring q strictly below 2^53, computed with
explicit fuel so that the kernel can evaluate it.  For q in [2^b, 2^(b+1))
with b at least 53 this is b - 52, the exponent of the distance between
consecutive IEEE-754 doubles at that magnitude. -/
def sigScaleAux : ℕ → ℕ → ℕ
  | 0, _ => 0
  | fuel + 1, q => if q < 2 ^ 53 then 0 else sigScaleAux fuel (q / 2) + 1

/-- Round q to the nearest multiple of d, ties to even multiples:
q - q / d * d is the remainder below the lower multiple. -/
def floatRoundAux (q d : ℕ) : ℕ :=
  if 2 * (q - q / d * d) < d then q / d * d
  else if d < 2 * (q - q / d * d) then q / d * d + d
  else if q / d % 2 = 0 then q / d * d else q / d * d + d

/-- Round a natural number to the nearest IEEE-754 double (53-bit
significand, round half to even) and return the integer that the resulting
double represents.  CPython true division of two ints returns the correctly
rounded double of the exact quotient, and int() applied to an integral
double is exact, so this composed with exact division models
int(a / b) for ints a, b with b dividing a.  Overflow to infinity (at
2^1024) is not modelled; no claim exercises values that large. -/
def floatRoundNat (q : ℕ) : ℕ :=
  if q < 2 ^ 53 then q else floatRoundAux q (2 ^ sigScaleAux q q)

/-- Embedding of sym_utils.num_perms:
int(math.factorial(n) / math.factorial(n - m)).  The Python float
division is modelled by floatRoundNat of the exact (for m ≤ n) integer
quotient n!/(n-m)!.  (For m > n Python raises on the negative factorial;
the embedding is junk there and no claim exercises it.) -/
def num_perms (n m : ℕ) : ℕ :=
  floatRoundNat (n.factorial / (n - m).factorial)

/-- Embedding of sym_utils.sizes_to_size:
sum(num_perms(n, m) * sizes[m] for m in range(len(sizes))). -/
def sizes_to_size (n : ℕ) (sizes : List ℕ) : ℕ :=
  ((List.range sizes.length).map (fun m => num_perms n m * sizes.getD m 0)).sum

/-- Exact ordered-permutation count P(n, m) = n!/(n-m)!, the mathematical
value that num_perms is specified to produce. -/
def permCount (n m : ℕ) : ℕ := n.factorial / (n - m).factorial

/-- All ways to pick one element (by position) out of a list, returning the
picked element and the remaining list, in position order.  This is the
selection step of itertools.permutations. -/
def picks {α : Type} : List α → List (α × List α)
  | [] => []
  | x :: xs => (x, xs) :: (picks xs).map (fun p => (p.1, x :: p.2))

/-- Model of itertools.permutations(L, m): all m-length ordered selections
of distinct positions of L, in the order itertools generates them
(elements at repeated values are treated as distinct by position). -/
def permsOf {α : Type} : ℕ → List α → List (List α)
  | 0, _ => [[]]
  | m + 1, L => (picks L).flatMap (fun p => (permsOf m p.2).map (fun s => p.1 :: s))

/-- Embedding of sym_utils.mask_perm:
[mask.index(x) if x in mask else -1 for x in perm]. -/
def mask_perm (perm : List ℕ) (mask : List ℕ) : List ℤ :=
  perm.map (fun x => if x ∈ mask then (mask.indexOf x : ℤ) else -1)

/-- The list list(range(k)) + [-1] * (n - k) that unq_permutations permutes. -/
def symAlphabet (n k : ℕ) : List ℤ :=
  (List.range k).map (fun j : ℕ => (j : ℤ)) ++ List.replicate (n - k) (-1)

/-- Embedding of sym_utils.unq_permutations(n, m, k):
set(itertools.permutations(list(range(k)) + [-1] * (n - k), m)). -/
def unq_permutations (n m k : ℕ) : Finset (List ℤ) :=
  (permsOf m (symAlphabet n k)).toFinset

/-- Modelled from the spec (the incremental orbit construction is described
in section 4.1 of the spec but has no implementation under src/): all results
of substituting v for one sentinel occurrence of a sequence, one per sentinel
position. -/
def subst_sentinel (v : ℤ) : List ℤ → List (List ℤ)
  | [] => []
  | x :: xs =>
    (if x = -1 then [v :: xs] else []) ++ (subst_sentinel v xs).map (fun s => x :: s)

/-- Modelled from the spec: the incremental construction of the orbits for
k out of the orbits for k - 1 — for each orbit of k - 1 and each sentinel
position, substitute k - 1. -/
def incrementalOrbits (n m k : ℕ) : Finset (List ℤ) :=
  (unq_permutations n m (k - 1)).biUnion
    (fun s => (subst_sentinel ((k : ℤ) - 1) s).toFinset)

/-- The orbits for k - 1 that are already orbits for k: those with at most
n - k sentinels.  Together with incrementalOrbits these make up the orbits
for k (the correction of the spec's incremental construction). -/
def retainedOrbits (n m k : ℕ) : Finset (List ℤ) :=
  (unq_permutations n m (k - 1)).filter (fun s => s.count (-1) ≤ n - k)

/-! ### SymLinear construction, from src/pyhanabi/r2d2.py -/

/-- Number of weight-matrix parameter tensors registered by
sym_utils.build_weight: one per output arity class m1 with nonzero size,
input arity class m0 with nonzero size, and orbit key in
unq_permutations(n, m0, m1). -/
def build_weight_tensor_count (n : ℕ) (in_sizes out_sizes : List ℕ) : ℕ :=
  ((List.range out_sizes.length).map (fun m1 =>
    if out_sizes.getD m1 0 ≠ 0 then
      ((List.range in_sizes.length).map (fun m0 =>
        if in_sizes.getD m0 0 ≠ 0 then (unq_permutations n m0 m1).card else 0)).sum
    else 0)).sum

/-- Total number of learnable scalar parameters of a SymLinear: every weight
matrix contributes out_sizes[m1] * in_sizes[m0] scalars, and the single
full-width bias vector contributes sizes_to_size(n, out_sizes) scalars. -/
def symLinear_param_scalars (n : ℕ) (in_sizes out_sizes : List ℕ) : ℕ :=
  ((List.range out_sizes.length).map (fun m1 =>
    if out_sizes.getD m1 0 ≠ 0 then
      ((List.range in_sizes.length).map (fun m0 =>
        if in_sizes.getD m0 0 ≠ 0 then
          (unq_permutations n m0 m1).card * (out_sizes.getD m1 0 * in_sizes.getD m0 0)
        else 0)).sum
    else 0)).sum + sizes_to_size n out_sizes

/-- Number of parameter tensors a freshly constructed SymLinear owns: the
weight matrices plus the single unconditionally registered bias tensor. -/
def symLinear_param_tensors (n : ℕ) (in_sizes out_sizes : List ℕ) : ℕ :=
  build_weight_tensor_count n in_sizes out_sizes + 1

/-- Embedding of SymLinear.__init__ followed by reset_parameters.  Building
the weights and the bias cannot fail; reset_parameters first asserts that
the parameter-tensor list is nonempty, then computes
stdv = 1.0 / math.sqrt(self.out_size), which raises ZeroDivisionError
exactly when out_size = 0.  The result is the out_size of the constructed
layer; none models a raised exception. -/
def symLinear_construct (n : ℕ) (in_sizes out_sizes : List ℕ) : Option ℕ :=
  if symLinear_param_tensors n in_sizes out_sizes = 0 then none
  else if sizes_to_size n out_sizes = 0 then none
  else some (sizes_to_size n out_sizes)

/-! ### Tensor-operation models

A one-dimensional tensor is a list over the entry ring.  The torch
operations that sym_utils.linear uses on the last dimension are modelled
with their shape checks: narrow raises when the requested slice exceeds the
tensor, matmul of a vector with a 2-D matrix requires the vector length to
match the matrix row count, and an in-place add requires the right operand
to broadcast (equal length, or length one). -/

variable {R : Type} [CommRing R]

/-- Elementwise sum of two equal-length vectors (zipWith keeps the shorter
length; all uses are length-matched). -/
def vadd (a b : List R) : List R := List.zipWith (· + ·) a b

/-- Model of torch narrow on the last dimension: x.narrow(-1, st, len). -/
def narrowCheck (x : List R) (st len : ℕ) : Option (List R) :=
  if st + len ≤ x.length then some ((x.drop st).take len) else none

/-- Model of torch.matmul(v, W) for a vector v and a 2-D matrix W given as
its list of rows: requires v to have exactly one entry per row of W (and W
to be rectangular, which holds for every real tensor); the result is the
vector of column sums Σ_i v_i * W_i. -/
def matmulVM (v : List R) (W : List (List R)) : Option (List R) :=
  if v.length = W.length ∧ ∀ row ∈ W, row.length = (W.headD []).length then
    some ((v.zip W).foldl (fun acc p => vadd acc (p.2.map (fun w => p.1 * w)))
      (List.replicate (W.headD []).length 0))
  else none

/-- Model of the in-place torch addition yi += prod: the right operand must
broadcast to the left one (equal length, or a single entry added to every
component); in-place addition cannot grow the left operand. -/
def vaddCheck (a b : List R) : Option (List R) :=
  if b.length = a.length then some (vadd a b)
  else if b.length = 1 then some (a.map (fun ai => ai + b.headD 0))
  else none

/-- Body of the innermost loop of sym_utils.linear (one perm0): slice the
input at the running offset, multiply by the shared weight looked up at
(m1, perm0), and accumulate into the current output slice.  The state is
(st_x, yi). -/
def innerBody (x : List R) (weight : ℕ → List ℤ → List (List R)) (in_sizes : List ℕ)
    (m1 m0 : ℕ) (t : ℕ × List R) (perm0 : List ℤ) : Option (ℕ × List R) := do
  let i0 := in_sizes.getD m0 0
  let xj ← narrowCheck x t.1 i0
  let prod ← matmulVM xj (weight m1 perm0)
  let yi2 ← vaddCheck t.2 prod
  pure (t.1 + i0, yi2)

/-- The inner double loop of sym_utils.linear for a fixed output
permutation perm1: iterate input arity classes m0 (skipping empty ones) and
for each the permutations of the masked agent list, threading (st_x, yi). -/
def innerClassFold (n : ℕ) (x : List R) (weight : ℕ → List ℤ → List (List R))
    (in_sizes : List ℕ) (m1 : ℕ) (perm1 : List ℕ) (t : ℕ × List R) :
    Option (ℕ × List R) :=
  (List.range in_sizes.length).foldlM (fun t m0 =>
    if in_sizes.getD m0 0 ≠ 0 then
      (permsOf m0 (mask_perm (List.range n) perm1)).foldlM (innerBody x weight in_sizes m1 m0) t
    else pure t) t

/-- Body of the outer loop of sym_utils.linear (one perm1): view the output
slice at the running offset st_y, run the inner loop on it starting from
st_x = 0, and write the updated slice back.  The state is (st_y, y). -/
def outerBody (n : ℕ) (x : List R) (weight : ℕ → List ℤ → List (List R))
    (in_sizes out_sizes : List ℕ) (m1 : ℕ) (s : ℕ × List R) (perm1 : List ℕ) :
    Option (ℕ × List R) := do
  let o1 := out_sizes.getD m1 0
  let yi ← narrowCheck s.2 s.1 o1
  let r ← innerClassFold n x weight in_sizes m1 perm1 (0, yi)
  pure (s.1 + o1, s.2.take s.1 ++ r.2 ++ s.2.drop (s.1 + o1))

/-- Embedding of sym_utils.linear(n, in_sizes, out_sizes, out_size, x,
weight, bias).  y starts as the bias broadcast over the leading dimensions
(one row is modelled, so y = bias); then for every output arity class m1
with nonzero size and every output permutation perm1 the inner loops
accumulate matmul contributions into the slice of y at the running offset.
The out_size argument is unused by the source as well. -/
def linear (n : ℕ) (in_sizes out_sizes : List ℕ) (_out_size : ℕ) (x : List R)
    (weight : ℕ → List ℤ → List (List R)) (bias : List R) : Option (List R) := do
  let res ← (List.range out_sizes.length).foldlM (fun s m1 =>
    if out_sizes.getD m1 0 ≠ 0 then
      (permsOf m1 (List.range n)).foldlM (outerBody n x weight in_sizes out_sizes m1) s
    else pure s) ((0 : ℕ), bias)
  pure res.2

/-! ### Slice layout and the permutation action on it -/

/-- The layout descriptors of a tensor with symmetric size signature sizes:
one descriptor (m, t) per arity class m with nonzero size and concrete
agent permutation t, in the order the slices are laid out (classes in
order, permutations in itertools order). -/
def classTuples (n : ℕ) (sizes : List ℕ) : List (ℕ × List ℕ) :=
  (List.range sizes.length).flatMap (fun m =>
    if sizes.getD m 0 ≠ 0 then (permsOf m (List.range n)).map (fun t => (m, t)) else [])

/-- Widths of the slices of a signature, one per descriptor. -/
def sliceWidths (n : ℕ) (sizes : List ℕ) : List ℕ :=
  (classTuples n sizes).map (fun d => sizes.getD d.1 0)

/-- Exact total width of a signature: the sum of its slice widths. -/
def widthOf (n : ℕ) (sizes : List ℕ) : ℕ := (sliceWidths n sizes).sum

/-- Split a flat vector into consecutive chunks of the given widths. -/
def splitWidths {α : Type} : List ℕ → List α → List (List α)
  | [], _ => []
  | w :: ws, x => x.take w :: splitWidths ws (x.drop w)

/-- The slice of a flat tensor x that belongs to layout descriptor d. -/
def sliceOfTuple {α : Type} (n : ℕ) (sizes : List ℕ) (x : List α) (d : ℕ × List ℕ) :
    List α :=
  (splitWidths (sliceWidths n sizes) x).getD
    (@List.indexOf _ instBEqOfDecidableEq d (classTuples n sizes)) []

/-- Relabel the agents of a layout descriptor by σ. -/
def relabel (σ : ℕ → ℕ) (d : ℕ × List ℕ) : ℕ × List ℕ := (d.1, d.2.map σ)

/-- The permutation action of an agent relabeling σ on a flat tensor: the
slice of the result at descriptor (m, t) is the slice of x at (m, σ ∘ t). -/
def permuteSlices {α : Type} (σ : ℕ → ℕ) (n : ℕ) (sizes : List ℕ) (x : List α) :
    List α :=
  ((classTuples n sizes).map (fun d => sliceOfTuple n sizes x (relabel σ d))).flatten

/-- A full-width bias assembled from one per-arity-class vector, repeated
across all permutation slices of each class: the layout sym_utils.build_bias
provides and the spec prescribes. -/
def biasOfClasses (n : ℕ) (sizes : List ℕ) (cb : ℕ → List R) : List R :=
  ((classTuples n sizes).map (fun d => cb d.1)).flatten

/-- The per-slice items the inner loop of linear consumes for a fixed
output permutation t1: for each input arity class m0 with nonzero size and
each permutation of the masked agent list, the pair (m0, orbit key). -/
def inItems (n : ℕ) (in_sizes : List ℕ) (t1 : List ℕ) : List (ℕ × List ℤ) :=
  (List.range in_sizes.length).flatMap (fun m0 =>
    if in_sizes.getD m0 0 ≠ 0 then
      (permsOf m0 (mask_perm (List.range n) t1)).map (fun p => (m0, p))
    else [])

/-- The vector one inner-loop step adds to an output slice of length L:
the matmul of the input slice with the orbit weight, broadcast to length L
when it is a single entry.  none models a raised shape error. -/
def stepVec (weight : ℕ → List ℤ → List (List R)) (m1 L : ℕ)
    (it : (ℕ × List ℤ) × List R) : Option (List R) := do
  let prod ← matmulVM it.2 (weight m1 it.1.2)
  if prod.length = L then pure prod
  else if prod.length = 1 then pure (List.replicate L (prod.headD 0))
  else none

/-- The value of one output slice of linear in structured form: the initial
slice value b0 plus the sum of the step vectors of all (item, input-slice)
pairs. -/
def sliceValue (weight : ℕ → List ℤ → List (List R)) (m1 : ℕ)
    (ps : List ((ℕ × List ℤ) × List R)) (b0 : List R) : Option (List R) :=
  (ps.mapM (stepVec weight m1 b0.length)).map (fun vs => vs.foldl vadd b0)

/-- The structured form of linear: one slice value per output descriptor,
with input slices split positionally, concatenated at the end. -/
def linearStructured (n : ℕ) (in_sizes out_sizes : List ℕ) (x : List R)
    (weight : ℕ → List ℤ → List (List R)) (bias : List R) : Option (List R) :=
  (((classTuples n out_sizes).zip (splitWidths (sliceWidths n out_sizes) bias)).mapM
    (fun dz => sliceValue weight dz.1.1
      ((inItems n in_sizes dz.1.2).zip (splitWidths (sliceWidths n in_sizes) x))
      dz.2)).map List.flatten

/-- The value of the output slice at descriptor e, for a bias shared per
output arity class: the structured per-descriptor form of linear. -/
def descValue (n : ℕ) (ins : List ℕ) (x : List R)
    (weight : ℕ → List ℤ → List (List R)) (cb : ℕ → List R)
    (e : ℕ × List ℕ) : Option (List R) :=
  sliceValue weight e.1
    ((inItems n ins e.2).zip (splitWidths (sliceWidths n ins) x)) (cb e.1)

/-! ### SymLSTM stack, from src/pyhanabi/r2d2.py -/

/-- Embedding of SymLSTM.forward for an unpacked sequence-major input
[seq_len, batch, features].  The source computes max_batch_size, the
zero-initialised state (when hx is None), seq_len and the output buffer,
then runs the time loop whose first statement is
for t in self.num_layers: — iterating an int, which raises TypeError
before any cell update; when a prior state hx is provided the source first
calls self.permute_hid, a method that does not exist, raising
AttributeError.  Hence the only input that completes is an empty sequence
with no provided state; every other call is none (a raised exception). -/
def symLSTM_forward (num_layers n : ℕ) (hid_sizes : List ℕ)
    (input : List (List (List R)))
    (hx : Option (List (List (List R)) × List (List (List R)))) :
    Option (List (List (List R)) × (List (List (List R)) × List (List (List R)))) :=
  match hx with
  | some _ => none
  | none =>
    let maxB := (input.headD []).length
    let hid_size := sizes_to_size n hid_sizes
    let zeros :=
      List.replicate num_layers (List.replicate maxB (List.replicate hid_size (0 : R)))
    if input.length = 0 then some ([], (zeros, zeros)) else none

/-! ### Dueling head, TD error and loss, from src/pyhanabi/r2d2.py -/

/-- Embedding of R2D2Net._duel for one row of the action dimension: v is
the (broadcast) value scalar, a the advantages, legal the legal-move mask.
The source asserts a.size() == legal_move.size(), multiplies, and subtracts
legal_a.mean(2, keepdim=True) — the mean over the whole action dimension. -/
def duel (v : ℚ) (a legal : List ℚ) : Option (List ℚ) :=
  if a.length = legal.length then
    some ((List.zipWith (· * ·) a legal).map
      (fun z => v + z - (List.zipWith (· * ·) a legal).sum / ((legal.length : ℚ))))
  else none

/-- Modelled from the claim (C5): the dueling combination with the mean
taken only over the legal actions of the row, dividing by the number of
legal actions (the sum of the 0/1 mask) instead of the action count. -/
def duel_legalMean (v : ℚ) (a legal : List ℚ) : Option (List ℚ) :=
  if a.length = legal.length then
    some ((List.zipWith (· * ·) a legal).map
      (fun z => v + z - (List.zipWith (· * ·) a legal).sum / legal.sum))
  else none

/-- Embedding of the shift in R2D2Agent.td_error:
torch.cat([target_qa[k:], target_qa[:k]], 0) followed by
target_qa[-k:] = 0.  Python slice semantics: for k = 0 the assignment
target_qa[-0:] = 0 zeroes the whole stream; for k ≥ 1 it zeroes the last
min(k, length) rows. -/
def pyShiftZero (k : ℕ) (rows : List (List R)) (width : ℕ) : List (List R) :=
  let rotated := rows.drop k ++ rows.take k
  let zcount := if k = 0 then rows.length else min k rows.length
  rotated.take (rows.length - zcount) ++
    List.replicate zcount (List.replicate width (0 : R))

/-- Modelled from the claim (C6): the backward shift by the multi-step
horizon, target[t] ← target[t+k], with positions whose source index falls
beyond the stream end set to zero. -/
def shiftSpec (k : ℕ) (rows : List (List R)) (width : ℕ) : List (List R) :=
  (List.range rows.length).map (fun t =>
    if t + k < rows.length then rows.getD (t + k) [] else List.replicate width (0 : R))

/-- Embedding of the value part of R2D2Agent.td_error after the network
evaluations, over sequence-major [seq_len, batch] streams: shift the target
stream, form target = reward + bootstrap * gamma^k * shifted, subtract the
online stream, and zero every entry at or beyond the sample's true sequence
length (multiplication by the arange-based mask). -/
def td_error_err (k : ℕ) (γ : R) (online target reward bootstrap : List (List R))
    (seq_len : List ℕ) : List (List R) :=
  let shifted := pyShiftZero k target (target.headD []).length
  (List.range target.length).map (fun t =>
    List.zipWith (fun (e : R) sl => e * (if t < sl then 1 else 0))
      (List.zipWith (fun tv ov => tv - ov)
        (List.zipWith (fun r p => r + p) (reward.getD t [])
          (List.zipWith (fun b s => b * γ ^ k * s) (bootstrap.getD t [])
            (shifted.getD t [])))
        (online.getD t []))
      seq_len)

/-- Modelled from the claim (C6): the TD error with the shift as the claim
states it (shiftSpec in place of the Python slice manipulation). -/
def td_error_claim (k : ℕ) (γ : R) (online target reward bootstrap : List (List R))
    (seq_len : List ℕ) : List (List R) :=
  let shifted := shiftSpec k target (target.headD []).length
  (List.range target.length).map (fun t =>
    List.zipWith (fun (e : R) sl => e * (if t < sl then 1 else 0))
      (List.zipWith (fun tv ov => tv - ov)
        (List.zipWith (fun r p => r + p) (reward.getD t [])
          (List.zipWith (fun b s => b * γ ^ k * s) (bootstrap.getD t [])
            (shifted.getD t [])))
        (online.getD t []))
      seq_len)

/-- Elementwise smooth-L1 (Huber) loss against a zero target with the
default beta = 1, as computed by nn.functional.smooth_l1_loss with
reduction none. -/
def huber (x : ℚ) : ℚ := if |x| < 1 then x ^ 2 / 2 else |x| - 1 / 2

/-- The RL loss vector of R2D2Agent.loss: the elementwise Huber loss of the
TD error, summed over the time dimension, one entry per batch element. -/
def rl_loss_vec (err : List (List ℚ)) : List ℚ :=
  err.foldl (fun acc row => List.zipWith (· + ·) acc (row.map huber))
    (List.replicate (err.headD []).length 0)

/-- Embedding of the value returned by R2D2Agent.loss: the RL loss vector,
plus pred_weight times the per-sample auxiliary prediction loss when
pred_weight > 0.  (The auxiliary network computation is abstracted as the
input vector predLoss.)  No normalisation by sequence length and no batch
averaging is applied to the returned value. -/
def agent_loss (pred_weight : ℚ) (err : List (List ℚ)) (predLoss : List ℚ) : List ℚ :=
  if 0 < pred_weight then
    List.zipWith (· + ·) (rl_loss_vec err) (predLoss.map (fun p => pred_weight * p))
  else rl_loss_vec err

/-- The scalar fed to the rl_loss statistics sink by R2D2Agent.loss:
(rl_loss / seq_len).mean() — the per-sample sequence-length normalisation
and batch averaging happen only here, not on the returned loss. -/
def rl_loss_stat (err : List (List ℚ)) (seq_len : List ℚ) : ℚ :=
  (List.zipWith (fun r s => r / s) (rl_loss_vec err) seq_len).sum /
    ((rl_loss_vec err).length : ℚ)

/-- Modelled from the claim (C7): the claimed returned RL loss — the Huber
loss of the TD error summed over time, normalised by each sample's true
sequence length, and averaged over the batch (a scalar). -/
def loss_claim_rl (err : List (List ℚ)) (seq_len : List ℚ) : ℚ :=
  (List.zipWith (fun r s => r / s) (rl_loss_vec err) seq_len).sum /
    ((rl_loss_vec err).length : ℚ)

/-- Embedding of SymLinear.forward: sym_utils.linear applied with the
layer's single full-width bias vector. -/
def symLinear_forward (n : ℕ) (in_sizes out_sizes : List ℕ) (x : List R)
    (weight : ℕ → List ℤ → List (List R)) (bias : List R) : Option (List R) :=
  linear n in_sizes out_sizes (sizes_to_size n out_sizes) x weight bias

/-! ### Concrete instances used by the claim evaluations -/

/-- A weight assignment with the exact shapes a fresh
SymLinear(2, (4, 2), (1, 3)) allocates: each matrix has
out_sizes[m1] rows of in_sizes[m0] entries, m0 being the key length
(entries zero; the shape behaviour under study does not depend on them). -/
def freshWeight242 : ℕ → List ℤ → List (List ℤ) := fun m1 key =>
  List.replicate ([1, 3].getD m1 0) (List.replicate ([4, 2].getD key.length 0) 0)

/-- The all-zero 1-by-1 weight assignment for the n = 2 signatures
(0, 1) → (0, 1), whose matrices all have shape (1, 1). -/
def zeroWeight11 : ℕ → List ℤ → List (List ℤ) := fun _ _ => [[0]]

/-- A nontrivial 1-by-1 weight assignment for the n = 2 signatures
(0, 1) → (0, 1), distinguishing the two orbit keys of arity class one. -/
def someWeight11 : ℕ → List ℤ → List (List ℤ) := fun _ key =>
  if key = [0] then [[2]] else if key = [-1] then [[3]] else [[0]]

/-- The transposition of agents 0 and 1. -/
def swap01 : ℕ → ℕ := fun a => if a = 0 then 1 else if a = 1 then 0 else a

/-- A per-class bias for the n = 2 signature (0, 1): the single arity-one
class has the shared bias vector [5]. -/
def classBias01 : ℕ → List ℤ := fun m => if m = 1 then [5] else []

end HanabiSAD

namespace HanabiSAD

/-! ## Theorems -/

/-! ### Basic facts about the float-rounding model and num_perms -/

theorem sigScaleAux_zero_eq (q : ℕ) : sigScaleAux 0 q = 0 := rfl

theorem sigScaleAux_succ_eq (fuel q : ℕ) :
    sigScaleAux (fuel + 1) q =
      if q < 2 ^ 53 then 0 else sigScaleAux fuel (q / 2) + 1 := rfl

theorem sigScaleAux_pow_le (fuel : ℕ) : ∀ q : ℕ, 1 ≤ q → 2 ^ sigScaleAux fuel q ≤ q := by
  induction fuel with
  | zero => intro q hq; rw [sigScaleAux_zero_eq, pow_zero]; exact hq
  | succ fuel ih =>
    intro q hq
    rw [sigScaleAux_succ_eq]
    by_cases h : q < 2 ^ 53
    · rw [if_pos h, pow_zero]; exact hq
    · rw [if_neg h]
      have h2 : (2 : ℕ) ≤ q := le_trans (by norm_num) (le_of_not_lt h)
      have hq2 : 1 ≤ q / 2 := (Nat.one_le_div_iff (by norm_num)).2 h2
      have hih := ih (q / 2) hq2
      have hdiv : q / 2 * 2 ≤ q := Nat.div_mul_le_self q 2
      calc 2 ^ (sigScaleAux fuel (q / 2) + 1) = 2 ^ sigScaleAux fuel (q / 2) * 2 := by
            rw [pow_succ]
        _ ≤ q / 2 * 2 := Nat.mul_le_mul_right 2 hih
        _ ≤ q := hdiv

theorem floatRoundAux_pos {q d : ℕ} (hd : 0 < d) (hdq : d ≤ q) : 0 < floatRoundAux q d := by
  have hlo : 0 < q / d * d := Nat.mul_pos (Nat.div_pos hdq hd) hd
  unfold floatRoundAux
  split
  · exact hlo
  · split
    · exact hlo.trans_le (Nat.le_add_right _ _)
    · split
      · exact hlo
      · exact hlo.trans_le (Nat.le_add_right _ _)

theorem floatRoundNat_pos {q : ℕ} (hq : 0 < q) : 0 < floatRoundNat q := by
  unfold floatRoundNat
  by_cases h : q < 2 ^ 53
  · rw [if_pos h]; exact hq
  · rw [if_neg h]
    exact floatRoundAux_pos (Nat.pos_pow_of_pos _ (by norm_num))
      (sigScaleAux_pow_le q q hq)

theorem num_perms_pos (n m : ℕ) : 0 < num_perms n m := by
  unfold num_perms
  exact floatRoundNat_pos
    (Nat.div_pos (Nat.factorial_le (Nat.sub_le n m)) (Nat.factorial_pos (n - m)))

/-- Claim C8 (status code_bug).  num_perms is specified to return exactly
P(n, m) = n!/(n-m)!, but the Python float division rounds to a double: at
n = 23, m = 19 the exact value 1077167364120207360000 exceeds 53-bit
precision and the code returns 1077167364120207425536 instead. -/
theorem num_perms_inexact_at_23_19 :
    num_perms 23 19 = 1077167364120207425536 ∧
    permCount 23 19 = 1077167364120207360000 ∧
    num_perms 23 19 ≠ permCount 23 19 :=
  ⟨by decide, by decide, by decide⟩

/-! ### Claim C10: zero-parameter SymLinear construction -/

theorem sizes_to_size_eq_zero_iff (n : ℕ) (sizes : List ℕ) :
    sizes_to_size n sizes = 0 ↔ ∀ m < sizes.length, sizes.getD m 0 = 0 := by
  unfold sizes_to_size
  rw [List.sum_eq_zero_iff]
  constructor
  · intro h m hm
    have hz := h (num_perms n m * sizes.getD m 0)
      (List.mem_map.2 ⟨m, List.mem_range.2 hm, rfl⟩)
    have hp := num_perms_pos n m
    rcases Nat.mul_eq_zero.1 hz with h0 | h0
    · omega
    · exact h0
  · intro h z hz
    rcases List.mem_map.1 hz with ⟨m, hm, rfl⟩
    rw [h m (List.mem_range.1 hm)]
    exact Nat.mul_zero _

/-- Claim C10 (status confirmed).  Constructing a SymLinear raises exactly
when the configuration has zero learnable scalar parameters: the parameter
count is zero iff the total output width is zero, in which case
reset_parameters divides by math.sqrt(0); every configuration with at least
one learnable parameter constructs successfully.  (The nonempty-parameters
assertion itself never fires, since the bias tensor is always registered.) -/
theorem symLinear_construct_none_iff_zero_params :
    ∀ (n : ℕ) (in_sizes out_sizes : List ℕ),
      symLinear_construct n in_sizes out_sizes = none ↔
        symLinear_param_scalars n in_sizes out_sizes = 0 := by
  intro n ins outs
  have htens : symLinear_param_tensors n ins outs ≠ 0 := by
    unfold symLinear_param_tensors; omega
  constructor
  · intro h
    unfold symLinear_construct at h
    rw [if_neg htens] at h
    by_cases hz : sizes_to_size n outs = 0
    · unfold symLinear_param_scalars
      rw [hz, Nat.add_zero, List.sum_eq_zero_iff]
      intro z hz2
      rcases List.mem_map.1 hz2 with ⟨m1, hm1, rfl⟩
      have h0 : outs.getD m1 0 = 0 :=
        (sizes_to_size_eq_zero_iff n outs).1 hz m1 (List.mem_range.1 hm1)
      simp only [h0]
      simp
    · rw [if_neg hz] at h; exact absurd h (by simp)
  · intro h
    have hz : sizes_to_size n outs = 0 := by
      unfold symLinear_param_scalars at h; omega
    unfold symLinear_construct
    rw [if_neg htens, if_pos hz]

/-! ### Claim C2: the forward shape contract of sym_utils.linear -/

/-- Claim C2 (status code_bug).  The spec's scenario — n = 2 agents,
sizes_in = (4, 2), sizes_out = (1, 3), all-zero input of width 8 through a
freshly shaped transform — must return the bias broadcast to width 7, but
sym_utils.linear multiplies each input slice by the weight matrix without
transposing it (xj.matmul of a length-4 slice with a (1, 4) matrix), which
raises a shape error; the call returns no tensor at all. -/
theorem linear_scenario_shape_error :
    linear 2 [4, 2] [1, 3] 7 (List.replicate 8 (0 : ℤ)) freshWeight242
      [1, 2, 3, 4, 5, 6, 7] = none := by decide

/-! ### Claim C3: bias sharing across permutation slices -/

/-- Claim C3 (status code_bug).  SymLinear registers one full-width bias
vector (r2d2.py line 26) instead of the per-arity-class vectors of
sym_utils.build_bias, so the P(n, m1) permutation slices of an output
arity class are initialised from different bias entries: with n = 2,
signatures (0, 1) → (0, 1), zero weights, zero input and bias [1, 2], the
two arity-one output slices are [1] and [2]. -/
theorem symLinear_bias_not_shared :
    symLinear_forward 2 [0, 1] [0, 1] ([0, 0] : List ℤ) zeroWeight11 [1, 2] =
        some [1, 2] ∧
      sliceOfTuple 2 [0, 1] ([1, 2] : List ℤ) (1, [0]) ≠
        sliceOfTuple 2 [0, 1] ([1, 2] : List ℤ) (1, [1]) := by
  exact ⟨by decide, by decide⟩

/-! ### Claim C4: the SymLSTM stack forward -/

/-- Claim C4 (status code_bug).  SymLSTM.forward never reaches a cell
update: its time loop opens with for t in self.num_layers, iterating an
int, which raises TypeError on any nonempty sequence (and a provided prior
state first hits the missing self.permute_hid).  Evaluating the embedding
at a one-step sequence with no provided state yields the raised exception
(none), not the chained-cell outputs the claim describes. -/
theorem symLSTM_forward_raises :
    symLSTM_forward 1 2 [0, 1] ([[[0, 0]]] : List (List (List ℤ))) none = none := by
  decide

/-! ### Claim C5: the dueling combination -/

theorem sum_map_sub_const (l : List ℚ) (c : ℚ) :
    (l.map (fun z => z - c)).sum = l.sum - l.length * c := by
  induction l with
  | nil => simp
  | cons z l ih => simp [ih]; ring

/-- Claim C5 counterexample.  The claim's mean over legal actions only
(denominator: number of legal actions) disagrees with the code's mean over
the whole action dimension: with v = 0, a = (1, 0) and legal = (1, 0) the
code returns (1/2, -1/2) while the claim's formula gives (0, -1). -/
theorem duel_mean_not_legal_only :
    duel 0 [1, 0] [1, 0] ≠ duel_legalMean 0 [1, 0] [1, 0] := by
  norm_num [duel, duel_legalMean]

/-- Claim C5 (amended).  The dueling combination returns
Q = v + a * legal - mean(a * legal) with the mean over the full action
dimension (illegal actions contribute zero to the numerator but count in
the denominator); Q has the size of the legal mask, and the per-row mean of
Q - v is zero — in particular for fully legal rows. -/
theorem duel_masked_mean (v : ℚ) (a legal : List ℚ)
    (h : a.length = legal.length) (hpos : 0 < legal.length) :
    ∃ q, duel v a legal = some q ∧ q.length = legal.length ∧
      q = (List.zipWith (· * ·) a legal).map
        (fun z => v + z - (List.zipWith (· * ·) a legal).sum / ((legal.length : ℚ))) ∧
      (q.map (fun z => z - v)).sum = 0 := by
  refine ⟨_, by rw [duel, if_pos h], ?_, rfl, ?_⟩
  · rw [List.length_map, List.length_zipWith, h, Nat.min_self]
  · have hlen : (List.zipWith (· * ·) a legal).length = legal.length := by
      rw [List.length_zipWith, h, Nat.min_self]
    have hcast : ((legal.length : ℚ)) ≠ 0 := by
      exact_mod_cast Nat.pos_iff_ne_zero.1 hpos
    rw [List.map_map]
    have hfun :
        ((fun z => z - v) ∘ fun z =>
            v + z - (List.zipWith (· * ·) a legal).sum / ((legal.length : ℚ))) =
          fun z => z - (List.zipWith (· * ·) a legal).sum / ((legal.length : ℚ)) := by
      funext z; simp; ring
    rw [hfun, sum_map_sub_const, hlen]
    field_simp

theorem duel_masked_mean_witness :
    ([1, 2] : List ℚ).length = ([1, 1] : List ℚ).length ∧
    0 < ([1, 1] : List ℚ).length ∧
    (∃ q, duel 3 [1, 2] [1, 1] = some q ∧ q.length = ([1, 1] : List ℚ).length ∧
      q = (List.zipWith (· * ·) [1, 2] [1, 1]).map
        (fun z => 3 + z -
          (List.zipWith (· * ·) [1, 2] [1, 1]).sum / ((([1, 1] : List ℚ).length : ℚ))) ∧
      (q.map (fun z => z - 3)).sum = 0) :=
  ⟨by decide, by decide, duel_masked_mean 3 [1, 2] [1, 1] (by decide) (by decide)⟩

/-! ### Claim C6: the multi-step TD-error shift and masking -/

/-- Claim C6 counterexample.  At multi-step horizon k = 0 the Python
assignment target_qa[-0:] = 0 zeroes the whole shifted stream, while the
claim's shift target[t] ← target[t+k] is the identity with nothing zeroed:
with one step, target value 5, reward 0, bootstrap 1, γ = 1 the code's
error stream is [[0]] but the claim's is [[5]]. -/
theorem td_error_shift_bug_at_zero_horizon :
    td_error_err 0 (1 : ℤ) [[0]] [[5]] [[0]] [[1]] [1] ≠
      td_error_claim 0 (1 : ℤ) [[0]] [[5]] [[0]] [[1]] [1] := by
  decide

theorem list_ext_getD {α : Type} (d : α) {l₁ l₂ : List α} (hlen : l₁.length = l₂.length)
    (h : ∀ i < l₁.length, l₁.getD i d = l₂.getD i d) : l₁ = l₂ := by
  apply List.ext_getElem hlen
  intro i h1 h2
  have hi := h i h1
  rwa [List.getD_eq_getElem _ _ h1, List.getD_eq_getElem _ _ h2] at hi

theorem getD_map_range {α : Type} (f : ℕ → α) (d : α) (T t : ℕ) (ht : t < T) :
    (List.map f (List.range T)).getD t d = f t := by
  rw [List.getD_eq_getElem?_getD, List.getElem?_map, List.getElem?_range ht]
  simp

theorem getD_map_range_default {α : Type} (f : ℕ → α) (d : α) (T t : ℕ) (ht : T ≤ t) :
    (List.map f (List.range T)).getD t d = d := by
  apply List.getD_eq_default
  rw [List.length_map, List.length_range]
  exact ht

theorem pyShiftZero_eq_shiftSpec {R : Type} [CommRing R] (k : ℕ)
    (rows : List (List R)) (w : ℕ) (hk : 1 ≤ k) :
    pyShiftZero k rows w = shiftSpec k rows w := by
  unfold pyShiftZero shiftSpec
  rw [if_neg (show ¬k = 0 by omega)]
  have hrot : (rows.drop k ++ rows.take k).length = rows.length := by
    rw [List.length_append, List.length_drop, List.length_take]; omega
  have htl : (List.take (rows.length - min k rows.length)
      (rows.drop k ++ rows.take k)).length = rows.length - min k rows.length := by
    rw [List.length_take, hrot]; omega
  apply list_ext_getD ([] : List R)
  · rw [List.length_append, htl, List.length_replicate, List.length_map,
      List.length_range]
    omega
  · intro i hi
    rw [List.length_append, htl, List.length_replicate] at hi
    have hiT : i < rows.length := by omega
    rw [getD_map_range _ _ _ _ hiT]
    simp only []
    rw [List.getD_eq_getElem?_getD, List.getElem?_append, htl]
    by_cases hcase : i < rows.length - min k rows.length
    · have hik : i + k < rows.length := by omega
      rw [if_pos hcase, List.getElem?_take, if_pos (by omega),
        List.getElem?_append, List.length_drop,
        if_pos (by omega : i < rows.length - k), List.getElem?_drop,
        Nat.add_comm k i, if_pos hik,
        List.getD_eq_getElem?_getD rows (i + k)]
    · rw [if_neg hcase, List.getElem?_replicate,
        if_pos (by omega : i - (rows.length - min k rows.length) < min k rows.length),
        if_neg (by omega : ¬i + k < rows.length)]
      simp

theorem getD_mask_row_zero {R : Type} [CommRing R] (erow : List R) (seq_len : List ℕ)
    (t b : ℕ) (h : seq_len.getD b 0 ≤ t) :
    (List.zipWith (fun (e : R) sl => e * (if t < sl then 1 else 0)) erow seq_len).getD
      b 0 = 0 := by
  by_cases hb : b < (List.zipWith (fun (e : R) sl =>
      e * (if t < sl then 1 else 0)) erow seq_len).length
  · rw [List.getD_eq_getElem _ _ hb, List.getElem_zipWith]
    have hbs : b < seq_len.length := by
      rw [List.length_zipWith] at hb; omega
    rw [List.getD_eq_getElem _ _ hbs] at h
    rw [if_neg (by omega), mul_zero]
  · exact List.getD_eq_default _ _ (le_of_not_lt hb)

/-- Claim C6 (amended, horizon at least one).  For every multi-step horizon
k ≥ 1 the TD-error computation equals the claim's description — the target
stream shifted backward by k with the last k positions zeroed, combined as
reward + bootstrap * γ^k * shifted minus the online stream — and every
entry at or beyond a sample's true sequence length is exactly zero. -/
theorem td_error_matches_claim {R : Type} [CommRing R] (k : ℕ) (γ : R)
    (online target reward bootstrap : List (List R)) (seq_len : List ℕ)
    (hk : 1 ≤ k) :
    td_error_err k γ online target reward bootstrap seq_len =
      td_error_claim k γ online target reward bootstrap seq_len ∧
    ∀ t b, seq_len.getD b 0 ≤ t →
      ((td_error_err k γ online target reward bootstrap seq_len).getD t []).getD
        b 0 = 0 := by
  constructor
  · simp only [td_error_err, td_error_claim]
    rw [pyShiftZero_eq_shiftSpec k target _ hk]
  · intro t b h
    simp only [td_error_err]
    by_cases ht : t < target.length
    · rw [getD_map_range _ _ _ _ ht]
      exact getD_mask_row_zero _ _ _ _ h
    · rw [getD_map_range_default _ _ _ _ (by omega)]
      simp

theorem td_error_matches_claim_witness :
    1 ≤ 1 ∧
    (td_error_err 1 (2 : ℤ) [[1], [2]] [[5], [7]] [[1], [1]] [[1], [0]] [2] =
        td_error_claim 1 (2 : ℤ) [[1], [2]] [[5], [7]] [[1], [1]] [[1], [0]] [2] ∧
      ∀ t b, ([2] : List ℕ).getD b 0 ≤ t →
        ((td_error_err 1 (2 : ℤ) [[1], [2]] [[5], [7]] [[1], [1]] [[1], [0]]
          [2]).getD t []).getD b 0 = 0) :=
  ⟨by decide,
    td_error_matches_claim 1 (2 : ℤ) [[1], [2]] [[5], [7]] [[1], [1]] [[1], [0]] [2]
      (by decide)⟩

/-! ### Claim C7: the returned training loss -/

/-- Claim C7 counterexample.  The returned RL loss is not normalised by the
sequence length nor batch-averaged: for a single sample with TD error 2 and
true sequence length 2 the code returns the Huber sum 3/2, while the
claim's normalised batch average is 3/4.  (The normalised average is only
fed to the statistics sink.) -/
theorem loss_not_normalized :
    (agent_loss 0 [[2]] []).getD 0 0 ≠ loss_claim_rl [[2]] [2] := by
  norm_num [agent_loss, rl_loss_vec, loss_claim_rl, huber]

theorem rl_fold_length (rows : List (List ℚ)) (acc : List ℚ)
    (hrows : ∀ row ∈ rows, row.length = acc.length) :
    (rows.foldl (fun acc row => List.zipWith (· + ·) acc (row.map huber)) acc).length =
      acc.length := by
  induction rows generalizing acc with
  | nil => rfl
  | cons r rows ih =>
    rw [List.foldl_cons]
    have hr : r.length = acc.length := hrows r (by simp)
    have hlen : (List.zipWith (· + ·) acc (r.map huber)).length = acc.length := by
      rw [List.length_zipWith, List.length_map, hr, Nat.min_self]
    rw [ih _ (fun row hrow => by rw [hlen]; exact hrows row (by simp [hrow])), hlen]

theorem rl_fold_entry (rows : List (List ℚ)) (acc : List ℚ) (b : ℕ)
    (hrows : ∀ row ∈ rows, row.length = acc.length) (hb : b < acc.length) :
    (rows.foldl (fun acc row => List.zipWith (· + ·) acc (row.map huber)) acc).getD
        b 0 =
      acc.getD b 0 + (rows.map (fun row => huber (row.getD b 0))).sum := by
  induction rows generalizing acc with
  | nil => simp
  | cons r rows ih =>
    rw [List.foldl_cons]
    have hr : r.length = acc.length := hrows r (by simp)
    have hlen : (List.zipWith (· + ·) acc (r.map huber)).length = acc.length := by
      rw [List.length_zipWith, List.length_map, hr, Nat.min_self]
    rw [ih _ (fun row hrow => by rw [hlen]; exact hrows row (by simp [hrow]))
      (by omega)]
    have hzip : (List.zipWith (· + ·) acc (r.map huber)).getD b 0 =
        acc.getD b 0 + huber (r.getD b 0) := by
      rw [List.getD_eq_getElem _ _ (by omega), List.getElem_zipWith,
        List.getElem_map, List.getD_eq_getElem _ _ hb,
        List.getD_eq_getElem _ _ (by omega)]
    rw [hzip, List.map_cons, List.sum_cons]
    ring

/-- Claim C7 (amended).  R2D2Agent.loss returns one value per batch
element: the Huber loss of the TD error summed over the time dimension,
plus pred_weight times the sample's auxiliary prediction loss when
pred_weight > 0 — with no sequence-length normalisation and no batch
averaging on the returned value (those are applied only to the logged
statistic). -/
theorem agent_loss_entry (pw : ℚ) (err : List (List ℚ)) (predLoss : List ℚ) (b : ℕ)
    (hrect : ∀ row ∈ err, row.length = (err.headD []).length)
    (hp : predLoss.length = (err.headD []).length)
    (hb : b < (err.headD []).length) :
    (agent_loss pw err predLoss).getD b 0 =
      (err.map (fun row => huber (row.getD b 0))).sum +
        (if 0 < pw then pw * predLoss.getD b 0 else 0) := by
  have hacc : ∀ row ∈ err, row.length =
      (List.replicate (err.headD []).length (0 : ℚ)).length := by
    intro row hrow; rw [List.length_replicate]; exact hrect row hrow
  have hbacc : b < (List.replicate (err.headD []).length (0 : ℚ)).length := by
    rw [List.length_replicate]; exact hb
  have hrl : rl_loss_vec err =
      err.foldl (fun acc row => List.zipWith (· + ·) acc (row.map huber))
        (List.replicate (err.headD []).length 0) := rfl
  have hrl_len : (rl_loss_vec err).length = (err.headD []).length := by
    rw [hrl, rl_fold_length _ _ hacc, List.length_replicate]
  have hrl_entry : (rl_loss_vec err).getD b 0 =
      (err.map (fun row => huber (row.getD b 0))).sum := by
    rw [hrl, rl_fold_entry _ _ _ hacc hbacc]
    rw [List.getD_eq_getElem _ _ hbacc, List.getElem_replicate, zero_add]
  unfold agent_loss
  by_cases hpw : 0 < pw
  · rw [if_pos hpw, if_pos hpw]
    rw [List.getD_eq_getElem _ _ (by
      rw [List.length_zipWith, List.length_map, hrl_len, hp, Nat.min_self]
      exact hb)]
    rw [List.getElem_zipWith, List.getElem_map]
    rw [← List.getD_eq_getElem (rl_loss_vec err) 0 (by rw [hrl_len]; exact hb),
      ← List.getD_eq_getElem predLoss 0 (by rw [hp]; exact hb)]
    rw [hrl_entry]
  · rw [if_neg hpw, if_neg hpw, add_zero]
    exact hrl_entry

/-! ### Claim C9: orbit enumeration against the incremental construction -/

theorem picks_mem {α : Type} : ∀ (L : List α) (a : α) (r : List α),
    (a, r) ∈ picks L ↔ ∃ l₁ l₂, L = l₁ ++ a :: l₂ ∧ r = l₁ ++ l₂ := by
  intro L
  induction L with
  | nil =>
    intro a r
    simp only [picks, List.not_mem_nil, false_iff, not_exists]
    rintro l₁ l₂ ⟨hL, -⟩
    cases l₁ <;> simp at hL
  | cons x xs ih =>
    intro a r
    constructor
    · intro hp
      rcases List.mem_cons.1 hp with hp' | hp'
      · simp only [Prod.mk.injEq] at hp'
        obtain ⟨rfl, rfl⟩ := hp'
        exact ⟨[], _, rfl, rfl⟩
      · rcases List.mem_map.1 hp' with ⟨q, hq, hqe⟩
        simp only [Prod.mk.injEq] at hqe
        obtain ⟨rfl, rfl⟩ := hqe
        rcases (ih q.1 q.2).1 hq with ⟨l₁, l₂, hL, hr⟩
        exact ⟨x :: l₁, l₂, by simp [hL], by simp [hr]⟩
    · rintro ⟨l₁, l₂, hL, hr⟩
      cases l₁ with
      | nil =>
        simp only [List.nil_append, List.cons.injEq] at hL
        obtain ⟨rfl, rfl⟩ := hL
        simp only [List.nil_append] at hr
        subst hr
        exact List.mem_cons.2 (Or.inl rfl)
      | cons y l₁' =>
        simp only [List.cons_append, List.cons.injEq] at hL
        obtain ⟨rfl, hxs⟩ := hL
        simp only [List.cons_append] at hr
        subst hr
        refine List.mem_cons.2 (Or.inr (List.mem_map.2 ⟨(a, l₁' ++ l₂), ?_, rfl⟩))
        exact (ih a (l₁' ++ l₂)).2 ⟨l₁', l₂, hxs, rfl⟩

theorem cons_subperm_iff {α : Type} [DecidableEq α] {a : α} {s L : List α} :
    (a :: s).Subperm L ↔ a ∈ L ∧ s.Subperm (L.erase a) := by
  constructor
  · intro h
    have ha : a ∈ L := h.subset (List.mem_cons.2 (Or.inl rfl))
    refine ⟨ha, ?_⟩
    rw [List.subperm_ext_iff] at h ⊢
    intro x hx
    by_cases hxa : x = a
    · subst hxa
      have hxc := h x (List.mem_cons.2 (Or.inl rfl))
      rw [List.count_cons_self] at hxc
      rw [List.count_erase_self]
      omega
    · have hxc := h x (List.mem_cons.2 (Or.inr hx))
      rw [List.count_cons_of_ne hxa] at hxc
      rw [List.count_erase_of_ne hxa]
      exact hxc
  · rintro ⟨ha, h⟩
    rw [List.subperm_ext_iff] at h ⊢
    intro x hx
    have hcL : 1 ≤ L.count a := List.one_le_count_iff.2 ha
    by_cases hxa : x = a
    · subst hxa
      rw [List.count_cons_self]
      by_cases hxin : x ∈ s
      · have hc := h x hxin
        rw [List.count_erase_self] at hc
        omega
      · rw [List.count_eq_zero.2 hxin]
        omega
    · rcases List.mem_cons.1 hx with heq | hxs
      · exact absurd heq hxa
      · have hc := h x hxs
        rw [List.count_erase_of_ne hxa] at hc
        rw [List.count_cons_of_ne hxa]
        exact hc

theorem picks_rest_perm {α : Type} [DecidableEq α] {L : List α} {a : α} {r : List α}
    (hm : (a, r) ∈ picks L) : a ∈ L ∧ r.Perm (L.erase a) := by
  rcases (picks_mem L a r).1 hm with ⟨l₁, l₂, rfl, rfl⟩
  have ha : a ∈ l₁ ++ a :: l₂ := List.mem_append.2 (Or.inr (List.mem_cons.2 (Or.inl rfl)))
  refine ⟨ha, ?_⟩
  have h1 : (l₁ ++ a :: l₂).Perm (a :: (l₁ ++ l₂)) := List.perm_middle
  have h2 : (l₁ ++ a :: l₂).Perm (a :: (l₁ ++ a :: l₂).erase a) := List.perm_cons_erase ha
  exact List.Perm.cons_inv (h1.symm.trans h2)

theorem mem_permsOf {α : Type} [DecidableEq α] :
    ∀ (m : ℕ) (L s : List α), s ∈ permsOf m L ↔ s.length = m ∧ s.Subperm L := by
  intro m
  induction m with
  | zero =>
    intro L s
    simp only [permsOf, List.mem_singleton]
    constructor
    · rintro rfl; exact ⟨rfl, List.nil_subperm⟩
    · rintro ⟨hlen, -⟩; exact List.length_eq_zero.1 hlen
  | succ m ih =>
    intro L s
    simp only [permsOf, List.mem_flatMap, List.mem_map]
    constructor
    · rintro ⟨p, hp, s', hs', rfl⟩
      obtain ⟨haL, hperm⟩ := picks_rest_perm (L := L) (a := p.1) (r := p.2) (by simpa using hp)
      rcases (ih p.2 s').1 hs' with ⟨hlen, hsub⟩
      refine ⟨by simp [hlen], ?_⟩
      rw [cons_subperm_iff]
      exact ⟨haL, hsub.trans hperm.subperm⟩
    · rintro ⟨hlen, hsub⟩
      cases s with
      | nil => simp at hlen
      | cons a s' =>
        rw [cons_subperm_iff] at hsub
        obtain ⟨ha, hsub'⟩ := hsub
        obtain ⟨l₁, l₂, hL⟩ := List.append_of_mem ha
        have hp : (a, l₁ ++ l₂) ∈ picks L := (picks_mem L a (l₁ ++ l₂)).2 ⟨l₁, l₂, hL, rfl⟩
        have hperm : (l₁ ++ l₂).Perm (L.erase a) := (picks_rest_perm hp).2
        refine ⟨(a, l₁ ++ l₂), hp, s', ?_, rfl⟩
        apply (ih _ s').2
        exact ⟨by simpa using hlen, hsub'.trans hperm.symm.subperm⟩

theorem count_symAlphabet (n k : ℕ) (x : ℤ) :
    (symAlphabet n k).count x =
      (if 0 ≤ x ∧ x < (k : ℤ) then 1 else 0) + (if x = -1 then n - k else 0) := by
  have hinj : Function.Injective (fun j : ℕ => (j : ℤ)) := fun a b h =>
    Nat.cast_injective h
  unfold symAlphabet
  rw [List.count_append]
  congr 1
  · by_cases hx : 0 ≤ x ∧ x < (k : ℤ)
    · rw [if_pos hx]
      obtain ⟨j, rfl⟩ : ∃ j : ℕ, x = (j : ℤ) := ⟨x.toNat, (Int.toNat_of_nonneg hx.1).symm⟩
      have hj : j < k := by exact_mod_cast hx.2
      rw [List.count_map_of_injective _ _ hinj]
      exact List.count_eq_one_of_mem (List.nodup_range k) (List.mem_range.2 hj)
    · rw [if_neg hx, List.count_eq_zero.2]
      intro hmem
      rcases List.mem_map.1 hmem with ⟨j, hj, rfl⟩
      refine hx ⟨Int.natCast_nonneg j, ?_⟩
      show (j : ℤ) < (k : ℤ)
      exact_mod_cast List.mem_range.1 hj
  · rw [List.count_replicate]
    by_cases hx : x = -1
    · subst hx
      rw [if_pos (beq_self_eq_true (-1 : ℤ)), if_pos rfl]
    · rw [if_neg (by simp only [beq_iff_eq]; exact fun hh => hx hh.symm), if_neg hx]

theorem mem_unq_count (n m k : ℕ) (s : List ℤ) :
    s ∈ unq_permutations n m k ↔
      s.length = m ∧ ∀ x ∈ s, s.count x ≤
        (if 0 ≤ x ∧ x < (k : ℤ) then 1 else 0) + (if x = -1 then n - k else 0) := by
  rw [unq_permutations, List.mem_toFinset, mem_permsOf, List.subperm_ext_iff]
  constructor
  · rintro ⟨h1, h2⟩
    exact ⟨h1, fun x hx => (count_symAlphabet n k x) ▸ h2 x hx⟩
  · rintro ⟨h1, h2⟩
    exact ⟨h1, fun x hx => (count_symAlphabet n k x).symm ▸ h2 x hx⟩

theorem mem_subst (v : ℤ) : ∀ (s t : List ℤ),
    t ∈ subst_sentinel v s ↔ ∃ l₁ l₂, s = l₁ ++ (-1) :: l₂ ∧ t = l₁ ++ v :: l₂ := by
  intro s
  induction s with
  | nil =>
    intro t
    simp only [subst_sentinel, List.not_mem_nil, false_iff, not_exists]
    rintro l₁ l₂ ⟨hL, -⟩
    cases l₁ <;> simp at hL
  | cons x xs ih =>
    intro t
    simp only [subst_sentinel, List.mem_append, List.mem_map]
    constructor
    · rintro (ht | ⟨t', ht', rfl⟩)
      · by_cases hx : x = -1
        · rw [if_pos hx] at ht
          rcases List.mem_singleton.1 ht with rfl
          exact ⟨[], xs, by simp [hx], by simp⟩
        · rw [if_neg hx] at ht
          cases ht
      · rcases (ih t').1 ht' with ⟨l₁, l₂, rfl, rfl⟩
        exact ⟨x :: l₁, l₂, rfl, rfl⟩
    · rintro ⟨l₁, l₂, hs, ht⟩
      cases l₁ with
      | nil =>
        simp only [List.nil_append, List.cons.injEq] at hs
        obtain ⟨rfl, rfl⟩ := hs
        simp only [List.nil_append] at ht
        subst ht
        left
        rw [if_pos rfl]
        exact List.mem_singleton.2 rfl
      | cons y l₁' =>
        simp only [List.cons_append, List.cons.injEq] at hs
        obtain ⟨rfl, hxs⟩ := hs
        simp only [List.cons_append] at ht
        subst ht
        right
        exact ⟨l₁' ++ v :: l₂, (ih _).2 ⟨l₁', l₂, hxs, rfl⟩, rfl⟩

theorem count_append_cons (x c : ℤ) (l₁ l₂ : List ℤ) :
    (l₁ ++ c :: l₂).count x = l₁.count x + l₂.count x + (if c = x then 1 else 0) := by
  rw [List.count_append]
  by_cases h : x = c
  · subst h
    rw [List.count_cons_self, if_pos rfl]
    omega
  · rw [List.count_cons_of_ne h, if_neg (fun hh => h hh.symm)]
    omega

/-- Claim C9 counterexample.  With n = 2, m = 1, k = 1 the direct
enumeration yields the two orbits (0) and (-1), but the incremental
construction from the k = 0 orbit set only yields (0): every orbit it can
produce contains k - 1, so the orbits that avoid k - 1 are lost. -/
theorem unq_incremental_mismatch :
    ¬unq_permutations 2 1 1 = incrementalOrbits 2 1 1 := by decide

/-- Claim C9 (amended).  For 0 < k ≤ n and m ≤ n, the orbit set from direct
enumeration-then-deduplication equals the incremental construction from the
orbits for k - 1 (substituting k - 1 at each sentinel position) together
with the retained orbits for k - 1 that have at most n - k sentinels; and
for k = 0 the orbit set is exactly the all-sentinel m-length sequence. -/
theorem unq_permutations_incremental (n m k : ℕ) (hm : m ≤ n) (hk1 : 0 < k)
    (hkn : k ≤ n) :
    (unq_permutations n m k = incrementalOrbits n m k ∪ retainedOrbits n m k) ∧
    unq_permutations n m 0 = {List.replicate m (-1)} := by
  constructor
  · obtain ⟨K, rfl⟩ : ∃ K, k = K + 1 := ⟨k - 1, by omega⟩
    have hv : ((K + 1 : ℕ) : ℤ) - 1 = (K : ℤ) := by push_cast; ring
    apply Finset.ext
    intro s
    rw [Finset.mem_union]
    unfold incrementalOrbits retainedOrbits
    rw [Finset.mem_biUnion, Finset.mem_filter]
    simp only [Nat.add_sub_cancel, hv]
    constructor
    · intro hs
      rw [mem_unq_count] at hs
      obtain ⟨hlen, hcnt⟩ := hs
      by_cases hK : ((K : ℤ)) ∈ s
      · left
        obtain ⟨l₁, l₂, rfl⟩ := List.append_of_mem hK
        have hS : ∀ x : ℤ, (l₁ ++ ((K : ℤ)) :: l₂).count x ≤
            (if 0 ≤ x ∧ x < (K : ℤ) + 1 then 1 else 0) +
              (if x = -1 then n - (K + 1) else 0) := by
          intro x
          by_cases hx : x ∈ l₁ ++ ((K : ℤ)) :: l₂
          · have h2 := hcnt x hx
            push_cast at h2
            exact h2
          · rw [List.count_eq_zero.2 hx]; exact Nat.zero_le _
        refine ⟨l₁ ++ (-1) :: l₂, ?_, ?_⟩
        · rw [mem_unq_count]
          constructor
          · simp only [List.length_append, List.length_cons] at hlen ⊢
            omega
          · intro x hx
            have h1 := hS x
            rw [count_append_cons] at h1
            rw [count_append_cons]
            split_ifs at h1 ⊢ <;> omega
        · rw [List.mem_toFinset, mem_subst]
          exact ⟨l₁, l₂, rfl, rfl⟩
      · right
        have hS : ∀ x : ℤ, s.count x ≤
            (if 0 ≤ x ∧ x < (K : ℤ) + 1 then 1 else 0) +
              (if x = -1 then n - (K + 1) else 0) := by
          intro x
          by_cases hx : x ∈ s
          · have h2 := hcnt x hx
            push_cast at h2
            exact h2
          · rw [List.count_eq_zero.2 hx]; exact Nat.zero_le _
        refine ⟨?_, ?_⟩
        · rw [mem_unq_count]
          refine ⟨hlen, ?_⟩
          intro x hx
          have h1 := hS x
          have hxK : x ≠ (K : ℤ) := fun h => hK (h ▸ hx)
          split_ifs at h1 ⊢ <;> omega
        · have h1 := hS (-1)
          have hne : ¬(0 ≤ (-1 : ℤ) ∧ (-1 : ℤ) < (K : ℤ) + 1) := by omega
          rw [if_neg hne, if_pos rfl] at h1
          omega
    · rintro (⟨s', hs', hmem⟩ | ⟨hs, hcnt1⟩)
      · rw [List.mem_toFinset, mem_subst] at hmem
        obtain ⟨l₁, l₂, rfl, rfl⟩ := hmem
        rw [mem_unq_count] at hs'
        obtain ⟨hlen, hcnt⟩ := hs'
        have hS : ∀ x : ℤ, (l₁ ++ (-1 : ℤ) :: l₂).count x ≤
            (if 0 ≤ x ∧ x < (K : ℤ) then 1 else 0) + (if x = -1 then n - K else 0) := by
          intro x
          by_cases hx : x ∈ l₁ ++ (-1 : ℤ) :: l₂
          · exact hcnt x hx
          · rw [List.count_eq_zero.2 hx]; exact Nat.zero_le _
        rw [mem_unq_count]
        constructor
        · simp only [List.length_append, List.length_cons] at hlen ⊢
          omega
        · intro x hx
          have h1 := hS x
          rw [count_append_cons] at h1
          rw [count_append_cons]
          have hKcast : (0 : ℤ) ≤ (K : ℤ) := by positivity
          push_cast
          split_ifs at h1 ⊢ <;> omega
      · rw [mem_unq_count] at hs ⊢
        obtain ⟨hlen, hcnt⟩ := hs
        refine ⟨hlen, ?_⟩
        intro x hx
        have h1 := hcnt x hx
        push_cast
        by_cases hx1 : x = -1
        · subst hx1
          split_ifs at h1 ⊢ <;> omega
        · split_ifs at h1 ⊢ <;> omega
  · apply Finset.ext
    intro s
    rw [mem_unq_count, Finset.mem_singleton]
    constructor
    · rintro ⟨hlen, hcnt⟩
      refine List.eq_replicate_iff.2 ⟨hlen, ?_⟩
      intro b hb
      by_contra hne
      have h1 := hcnt b hb
      rw [if_neg (by push_cast; omega), if_neg hne] at h1
      have h2 : 1 ≤ s.count b := List.one_le_count_iff.2 hb
      omega
    · rintro rfl
      refine ⟨List.length_replicate _ _, ?_⟩
      intro x hx
      have hx1 : x = -1 := List.eq_of_mem_replicate hx
      subst hx1
      rw [List.count_replicate, if_pos (by simp)]
      have hc1 : ¬(0 ≤ (-1 : ℤ) ∧ (-1 : ℤ) < ((0 : ℕ) : ℤ)) := by norm_num
      rw [if_neg hc1, if_pos rfl]
      omega

/-! ### Claim C1: equivariance machinery — Option and fold utilities -/

theorem vadd_right_comm {R : Type} [CommRing R] :
    ∀ (b u v : List R), vadd (vadd b u) v = vadd (vadd b v) u := by
  intro b
  induction b with
  | nil => intro u v; rfl
  | cons x b ih =>
    intro u v
    cases u with
    | nil => cases v <;> rfl
    | cons y u =>
      cases v with
      | nil => rfl
      | cons z v =>
        show (x + y + z) :: vadd (vadd b u) v = (x + z + y) :: vadd (vadd b v) u
        rw [ih u v]
        congr 1
        ring

theorem foldl_vadd_perm {R : Type} [CommRing R] {vs vs' : List (List R)}
    (h : vs.Perm vs') : ∀ b : List R, vs.foldl vadd b = vs'.foldl vadd b := by
  induction h with
  | nil => intro b; rfl
  | cons u _ ih =>
    intro b
    simp only [List.foldl_cons]
    exact ih _
  | swap u v l =>
    intro b
    simp only [List.foldl_cons]
    rw [vadd_right_comm]
  | trans _ _ ih1 ih2 =>
    intro b
    rw [ih1 b, ih2 b]

theorem mapM_option_congr {α β : Type} {f g : α → Option β} :
    ∀ {l : List α}, (∀ a ∈ l, f a = g a) → l.mapM f = l.mapM g := by
  intro l
  induction l with
  | nil => intro _; rfl
  | cons a l ih =>
    intro h
    rw [List.mapM_cons, List.mapM_cons, h a (by simp), ih (fun b hb => h b (by simp [hb]))]

theorem mapM_option_none_iff {α β : Type} {f : α → Option β} :
    ∀ {l : List α}, l.mapM f = none ↔ ∃ a ∈ l, f a = none := by
  intro l
  induction l with
  | nil =>
    rw [List.mapM_nil]
    simp
  | cons a l ih =>
    rw [List.mapM_cons]
    constructor
    · intro h
      cases hfa : f a with
      | none => exact ⟨a, by simp, hfa⟩
      | some v =>
        rw [hfa] at h
        cases hrest : l.mapM f with
        | none =>
          rcases ih.1 hrest with ⟨b, hb, hfb⟩
          exact ⟨b, by simp [hb], hfb⟩
        | some vs =>
          rw [hrest] at h
          simp at h
    · rintro ⟨b, hb, hfb⟩
      rcases List.mem_cons.1 hb with rfl | hb'
      · rw [hfb]
        rfl
      · have hnone : l.mapM f = none := ih.2 ⟨b, hb', hfb⟩
        rw [hnone]
        cases f a <;> rfl

theorem mapM_option_map {α β : Type} {f : α → Option β} {g : α → β} :
    ∀ {l : List α}, (∀ a ∈ l, f a = some (g a)) → l.mapM f = some (l.map g) := by
  intro l
  induction l with
  | nil => intro _; rfl
  | cons a l ih =>
    intro h
    rw [List.mapM_cons, h a (by simp), ih (fun b hb => h b (by simp [hb]))]
    rfl

theorem mapM_option_some_elim {α β : Type} [Inhabited β] {f : α → Option β}
    {l : List α} {vs : List β} (h : l.mapM f = some vs) :
    (∀ a ∈ l, f a = some ((f a).getD default)) ∧
      vs = l.map (fun a => (f a).getD default) := by
  have hall : ∀ a ∈ l, f a = some ((f a).getD default) := by
    intro a ha
    cases hfa : f a with
    | none =>
      have : l.mapM f = none := mapM_option_none_iff.2 ⟨a, ha, hfa⟩
      rw [this] at h; cases h
    | some v => simp [hfa]
  refine ⟨hall, ?_⟩
  have h2 := mapM_option_map hall
  rw [h] at h2
  exact Option.some_inj.1 h2

theorem foldlM_option_congr {σ α : Type} {f g : σ → α → Option σ} :
    ∀ (l : List α), (∀ b, ∀ a ∈ l, f b a = g b a) → ∀ b, l.foldlM f b = l.foldlM g b := by
  intro l
  induction l with
  | nil => intro _ b; rfl
  | cons a l ih =>
    intro h b
    rw [List.foldlM_cons, List.foldlM_cons, h b a (by simp)]
    cases g b a with
    | none => rfl
    | some b' =>
      simp only [Option.bind_eq_bind, Option.bind_some]
      exact ih (fun c a' ha' => h c a' (by simp [ha'])) b'

theorem foldlM_option_flatMap {σ α β : Type} (l : List α) (g : α → List β)
    (f : σ → β → Option σ) (b : σ) :
    (l.flatMap g).foldlM f b = l.foldlM (fun b a => (g a).foldlM f b) b := by
  induction l generalizing b with
  | nil => rfl
  | cons a l ih =>
    rw [List.flatMap_cons, List.foldlM_append, List.foldlM_cons]
    cases (g a).foldlM f b with
    | none => rfl
    | some b' =>
      simp only [Option.bind_eq_bind, Option.bind_some]
      exact ih b'

theorem foldlM_option_map {σ α β : Type} (l : List α) (g : α → β)
    (f : σ → β → Option σ) (b : σ) :
    (l.map g).foldlM f b = l.foldlM (fun b a => f b (g a)) b := by
  induction l generalizing b with
  | nil => rfl
  | cons a l ih =>
    rw [List.map_cons, List.foldlM_cons, List.foldlM_cons]
    cases f b (g a) with
    | none => rfl
    | some b' =>
      simp only [Option.bind_eq_bind, Option.bind_some]
      exact ih b'

/-! ### Claim C1: structure of the permutation enumeration -/

theorem flatMap_congr_left {α β : Type} {f g : α → List β} :
    ∀ l : List α, (∀ a ∈ l, f a = g a) → l.flatMap f = l.flatMap g := by
  intro l
  induction l with
  | nil => intro _; rfl
  | cons a l ih =>
    intro h
    rw [List.flatMap_cons, List.flatMap_cons, h a (by simp),
      ih (fun b hb => h b (by simp [hb]))]

theorem picks_map {α β : Type} (f : α → β) :
    ∀ L : List α, picks (L.map f) = (picks L).map (fun p => (f p.1, p.2.map f)) := by
  intro L
  induction L with
  | nil => rfl
  | cons x xs ih =>
    simp only [List.map_cons, picks, ih, List.map_map]
    congr 1

theorem permsOf_map {α β : Type} (f : α → β) :
    ∀ (m : ℕ) (L : List α), permsOf m (L.map f) = (permsOf m L).map (List.map f) := by
  intro m
  induction m with
  | zero => intro L; rfl
  | succ m ih =>
    intro L
    show (picks (L.map f)).flatMap _ = ((picks L).flatMap _).map (List.map f)
    rw [picks_map, List.flatMap_map, List.map_flatMap]
    apply flatMap_congr_left
    intro p _
    rw [ih, List.map_map, List.map_map]
    exact List.map_congr_left (fun s _ => rfl)

theorem picks_heads {α : Type} : ∀ L : List α, (picks L).map (fun p => p.1) = L := by
  intro L
  induction L with
  | nil => rfl
  | cons x xs ih =>
    simp only [picks, List.map_cons, List.map_map]
    congr 1

theorem picks_rest_nodup {α : Type} {L : List α} {a : α} {r : List α}
    (hm : (a, r) ∈ picks L) (hL : L.Nodup) : r.Nodup := by
  rcases (picks_mem L a r).1 hm with ⟨l₁, l₂, rfl, rfl⟩
  exact List.Nodup.sublist (List.Sublist.append_left (List.sublist_cons_self a l₂) l₁) hL

theorem nodup_permsOf {α : Type} :
    ∀ (m : ℕ) (L : List α), L.Nodup → (permsOf m L).Nodup := by
  intro m
  induction m with
  | zero => intro L _; simp [permsOf]
  | succ m ih =>
    intro L hL
    show ((picks L).flatMap (fun p => (permsOf m p.2).map (fun s => p.1 :: s))).Nodup
    rw [List.nodup_flatMap]
    constructor
    · intro p hp
      apply List.Nodup.map
      · intro s t h
        simpa using h
      · rcases p with ⟨a, r⟩
        exact ih r (picks_rest_nodup hp hL)
    · have hheads : List.Pairwise (fun p q : α × List α => p.1 ≠ q.1) (picks L) := by
        rw [← picks_heads L] at hL
        exact List.pairwise_map.1 hL
      refine hheads.imp ?_
      intro p q hpq u hu1 hu2
      rcases List.mem_map.1 hu1 with ⟨s, _, rfl⟩
      rcases List.mem_map.1 hu2 with ⟨t, _, hst⟩
      exact hpq (by simpa using congrArg (fun l => l.headD p.1) hst.symm)

theorem subperm_nodup {α : Type} {l l' : List α} (h : l.Subperm l') (h2 : l'.Nodup) :
    l.Nodup := by
  obtain ⟨u, hperm, hsub⟩ := h
  exact (List.Nodup.sublist hsub h2).perm hperm

theorem mem_permsOf_range {n m : ℕ} {t : List ℕ} :
    t ∈ permsOf m (List.range n) ↔ t.length = m ∧ t.Nodup ∧ ∀ a ∈ t, a < n := by
  rw [mem_permsOf]
  constructor
  · rintro ⟨h1, h2⟩
    exact ⟨h1, subperm_nodup h2 (List.nodup_range n),
      fun a ha => List.mem_range.1 (h2.subset ha)⟩
  · rintro ⟨h1, h2, h3⟩
    exact ⟨h1, List.subperm_of_subset h2 (fun a ha => List.mem_range.2 (h3 a ha))⟩

theorem permsOf_range_closure {n m : ℕ} (σ : ℕ → ℕ)
    (hσ1 : ∀ a ∈ List.range n, σ a ∈ List.range n)
    (hσ2 : ∀ a ∈ List.range n, ∀ b ∈ List.range n, σ a = σ b → a = b)
    {t : List ℕ} (ht : t ∈ permsOf m (List.range n)) :
    t.map σ ∈ permsOf m (List.range n) := by
  rw [mem_permsOf_range] at ht ⊢
  obtain ⟨h1, h2, h3⟩ := ht
  refine ⟨by simp [h1], ?_, ?_⟩
  · refine List.Nodup.map_on ?_ h2
    intro a ha b hb hab
    exact hσ2 a (List.mem_range.2 (h3 a ha)) b (List.mem_range.2 (h3 b hb)) hab
  · intro a ha
    rcases List.mem_map.1 ha with ⟨b, hb, rfl⟩
    exact List.mem_range.1 (hσ1 b (List.mem_range.2 (h3 b hb)))

theorem map_inj_on_lt {n : ℕ} (σ : ℕ → ℕ)
    (hσ2 : ∀ a ∈ List.range n, ∀ b ∈ List.range n, σ a = σ b → a = b) :
    ∀ (t t' : List ℕ), (∀ a ∈ t, a < n) → (∀ a ∈ t', a < n) →
      t.map σ = t'.map σ → t = t' := by
  intro t
  induction t with
  | nil =>
    intro t' _ _ h
    cases t' with
    | nil => rfl
    | cons b t' => simp at h
  | cons a t ih =>
    intro t' hta htb h
    cases t' with
    | nil => simp at h
    | cons b t' =>
      simp only [List.map_cons, List.cons.injEq] at h
      obtain ⟨h1, h2⟩ := h
      have hab : a = b := hσ2 a (List.mem_range.2 (hta a (by simp)))
        b (List.mem_range.2 (htb b (by simp))) h1
      rw [hab, ih t' (fun c hc => hta c (by simp [hc])) (fun c hc => htb c (by simp [hc])) h2]

theorem permsOf_range_map_perm {n m : ℕ} (σ : ℕ → ℕ)
    (hσ1 : ∀ a ∈ List.range n, σ a ∈ List.range n)
    (hσ2 : ∀ a ∈ List.range n, ∀ b ∈ List.range n, σ a = σ b → a = b) :
    ((permsOf m (List.range n)).map (List.map σ)).Perm (permsOf m (List.range n)) := by
  have hnd : (permsOf m (List.range n)).Nodup := nodup_permsOf m _ (List.nodup_range n)
  have hnd2 : ((permsOf m (List.range n)).map (List.map σ)).Nodup := by
    refine List.Nodup.map_on ?_ hnd
    intro t ht t' ht' h
    exact map_inj_on_lt σ hσ2 t t' (mem_permsOf_range.1 ht).2.2
      (mem_permsOf_range.1 ht').2.2 h
  have hsub : (permsOf m (List.range n)).map (List.map σ) ⊆ permsOf m (List.range n) := by
    intro u hu
    rcases List.mem_map.1 hu with ⟨t, ht, rfl⟩
    exact permsOf_range_closure σ hσ1 hσ2 ht
  exact (List.subperm_of_subset hnd2 hsub).perm_of_length_le (by simp)

/-! ### Claim C1: masking under relabeling, and the slice layout -/

theorem indexOf_map_inj (σ : ℕ → ℕ) (a : ℕ) :
    ∀ t1 : List ℕ, (∀ y ∈ t1, σ y = σ a → y = a) →
      (t1.map σ).indexOf (σ a) = t1.indexOf a := by
  intro t1
  induction t1 with
  | nil => intro _; rfl
  | cons b t ih =>
    intro h
    simp only [List.map_cons, List.indexOf_cons]
    by_cases hba : b = a
    · subst hba; simp
    · have hsb : σ b ≠ σ a := fun hh => hba (h b (by simp) hh)
      rw [show (σ b == σ a) = false from beq_eq_false_iff_ne.2 hsb,
        show (b == a) = false from beq_eq_false_iff_ne.2 hba, cond_false, cond_false]
      rw [ih (fun y hy hyy => h y (by simp [hy]) hyy)]

theorem mem_map_inj (σ : ℕ → ℕ) (a : ℕ) (t1 : List ℕ)
    (h : ∀ y ∈ t1, σ y = σ a → y = a) : σ a ∈ t1.map σ ↔ a ∈ t1 := by
  constructor
  · intro hm
    rcases List.mem_map.1 hm with ⟨y, hy, he⟩
    exact (h y hy he) ▸ hy
  · intro hm
    exact List.mem_map.2 ⟨a, hm, rfl⟩

theorem mask_perm_map_map {n : ℕ} (σ : ℕ → ℕ)
    (hσ2 : ∀ a ∈ List.range n, ∀ b ∈ List.range n, σ a = σ b → a = b)
    (t0 t1 : List ℕ) (ht0 : ∀ a ∈ t0, a < n) (ht1 : ∀ a ∈ t1, a < n) :
    mask_perm (t0.map σ) (t1.map σ) = mask_perm t0 t1 := by
  unfold mask_perm
  rw [List.map_map]
  apply List.map_congr_left
  intro a ha
  have hinj : ∀ y ∈ t1, σ y = σ a → y = a := fun y hy he =>
    hσ2 y (List.mem_range.2 (ht1 y hy)) a (List.mem_range.2 (ht0 a ha)) he
  show (if σ a ∈ t1.map σ then (((t1.map σ).indexOf (σ a) : ℕ) : ℤ) else -1) = _
  by_cases hmem : a ∈ t1
  · rw [if_pos ((mem_map_inj σ a t1 hinj).2 hmem), if_pos hmem,
      indexOf_map_inj σ a t1 hinj]
  · rw [if_neg (fun hc => hmem ((mem_map_inj σ a t1 hinj).1 hc)), if_neg hmem]

theorem mem_classTuples {n : ℕ} {sizes : List ℕ} {d : ℕ × List ℕ} :
    d ∈ classTuples n sizes ↔
      d.1 < sizes.length ∧ sizes.getD d.1 0 ≠ 0 ∧ d.2 ∈ permsOf d.1 (List.range n) := by
  unfold classTuples
  rw [List.mem_flatMap]
  constructor
  · rintro ⟨m, hm, hd⟩
    by_cases hz : sizes.getD m 0 ≠ 0
    · rw [if_pos hz] at hd
      rcases List.mem_map.1 hd with ⟨t, ht, rfl⟩
      exact ⟨List.mem_range.1 hm, hz, ht⟩
    · rw [if_neg hz] at hd
      cases hd
  · rintro ⟨h1, h2, h3⟩
    refine ⟨d.1, List.mem_range.2 h1, ?_⟩
    rw [if_pos h2]
    exact List.mem_map.2 ⟨d.2, h3, rfl⟩

theorem nodup_classTuples (n : ℕ) (sizes : List ℕ) : (classTuples n sizes).Nodup := by
  unfold classTuples
  rw [List.nodup_flatMap]
  have hfst : ∀ (m : ℕ) (u : ℕ × List ℕ),
      u ∈ (if sizes.getD m 0 ≠ 0 then
        (permsOf m (List.range n)).map (fun t => (m, t)) else []) → u.1 = m := by
    intro m u hu
    split at hu
    · rcases List.mem_map.1 hu with ⟨t, _, rfl⟩; rfl
    · cases hu
  constructor
  · intro m _
    split
    · apply List.Nodup.map
      · intro t t' h
        simpa using h
      · exact nodup_permsOf m _ (List.nodup_range n)
    · exact List.nodup_nil
  · have hnd : List.Pairwise (· ≠ ·) (List.range sizes.length) := List.nodup_range _
    refine hnd.imp ?_
    intro m m' hne u hu1 hu2
    exact hne (by rw [← hfst m u hu1, ← hfst m' u hu2])

theorem flatMap_perm_of_pointwise {γ β : Type} :
    ∀ (ms : List γ) (f g : γ → List β), (∀ a ∈ ms, (f a).Perm (g a)) →
      (ms.flatMap f).Perm (ms.flatMap g) := by
  intro ms
  induction ms with
  | nil => intro _ _ _; rfl
  | cons a ms ih =>
    intro f g h
    rw [List.flatMap_cons, List.flatMap_cons]
    exact (h a (by simp)).append (ih f g (fun b hb => h b (by simp [hb])))

theorem classTuples_relabel_mem {n : ℕ} {sizes : List ℕ} (σ : ℕ → ℕ)
    (hσ1 : ∀ a ∈ List.range n, σ a ∈ List.range n)
    (hσ2 : ∀ a ∈ List.range n, ∀ b ∈ List.range n, σ a = σ b → a = b)
    {d : ℕ × List ℕ} (hd : d ∈ classTuples n sizes) :
    relabel σ d ∈ classTuples n sizes := by
  rw [mem_classTuples] at hd ⊢
  exact ⟨hd.1, hd.2.1, permsOf_range_closure σ hσ1 hσ2 hd.2.2⟩

theorem classTuples_relabel_perm {n : ℕ} (sizes : List ℕ) (σ : ℕ → ℕ)
    (hσ1 : ∀ a ∈ List.range n, σ a ∈ List.range n)
    (hσ2 : ∀ a ∈ List.range n, ∀ b ∈ List.range n, σ a = σ b → a = b) :
    ((classTuples n sizes).map (relabel σ)).Perm (classTuples n sizes) := by
  unfold classTuples
  rw [List.map_flatMap]
  apply flatMap_perm_of_pointwise
  intro m _
  by_cases hz : sizes.getD m 0 ≠ 0
  · rw [if_pos hz]
    have hp := (permsOf_range_map_perm (n := n) (m := m) σ hσ1 hσ2).map
      (fun t => (m, t))
    rw [List.map_map] at hp
    rw [List.map_map]
    have heq : (permsOf m (List.range n)).map ((fun t => (m, t)) ∘ List.map σ) =
        (permsOf m (List.range n)).map (relabel σ ∘ fun t : List ℕ => (m, t)) :=
      List.map_congr_left (fun t _ => rfl)
    rw [heq] at hp
    exact hp
  · rw [if_neg hz]
    rfl

theorem length_splitWidths {α : Type} :
    ∀ (ws : List ℕ) (x : List α), (splitWidths ws x).length = ws.length := by
  intro ws
  induction ws with
  | nil => intro x; rfl
  | cons w ws ih => intro x; simp [splitWidths, ih]

theorem splitWidths_flatten_map {γ α : Type} (wfun : γ → ℕ) (Fv : γ → List α) :
    ∀ ds : List γ, (∀ d ∈ ds, (Fv d).length = wfun d) →
      splitWidths (ds.map wfun) ((ds.map Fv).flatten) = ds.map Fv := by
  intro ds
  induction ds with
  | nil => intro _; rfl
  | cons d ds ih =>
    intro h
    simp only [List.map_cons, List.flatten_cons, splitWidths]
    rw [List.take_left' (h d (by simp)), List.drop_left' (h d (by simp))]
    rw [ih (fun e he => h e (by simp [he]))]

theorem splitWidths_lengths {α : Type} :
    ∀ (ws : List ℕ) (x : List α), ws.sum ≤ x.length →
      ∀ i, i < ws.length → ((splitWidths ws x).getD i []).length = ws.getD i 0 := by
  intro ws
  induction ws with
  | nil =>
    intro x _ i hi
    simp at hi
  | cons w ws ih =>
    intro x hsum i hi
    rw [List.sum_cons] at hsum
    cases i with
    | zero =>
      show ((x.take w :: splitWidths ws (x.drop w)).getD 0 []).length = _
      rw [List.getD_cons_zero, List.getD_cons_zero, List.length_take]
      omega
    | succ i =>
      show ((x.take w :: splitWidths ws (x.drop w)).getD (i + 1) []).length = _
      rw [List.getD_cons_succ, List.getD_cons_succ]
      apply ih
      · rw [List.length_drop]; omega
      · simpa using hi

theorem sliceWidths_eq_map (n : ℕ) (sizes : List ℕ) :
    sliceWidths n sizes = (classTuples n sizes).map (fun d => sizes.getD d.1 0) := rfl

theorem indexOf_getElem {α : Type} [DecidableEq α] {l : List α} (hnd : l.Nodup) (i : ℕ)
    (hi : i < l.length) : l.indexOf l[i] = i := by
  have h := List.get_indexOf hnd ⟨i, hi⟩
  simpa [List.get_eq_getElem] using h

theorem sliceOfTuple_length {α : Type} {n : ℕ} {sizes : List ℕ} (y : List α)
    (hy : y.length = widthOf n sizes) {d : ℕ × List ℕ} (hd : d ∈ classTuples n sizes) :
    (sliceOfTuple n sizes y d).length = sizes.getD d.1 0 := by
  unfold sliceOfTuple
  have hidx : @List.indexOf _ instBEqOfDecidableEq d (classTuples n sizes) <
      (classTuples n sizes).length := List.indexOf_lt_length.2 hd
  have hw1 : @List.indexOf _ instBEqOfDecidableEq d (classTuples n sizes) <
      (sliceWidths n sizes).length := by
    rw [sliceWidths_eq_map, List.length_map]; exact hidx
  rw [splitWidths_lengths (sliceWidths n sizes) y (by rw [hy]; exact le_refl _) _ hw1]
  have hw2 : @List.indexOf _ instBEqOfDecidableEq d (classTuples n sizes) <
      ((classTuples n sizes).map (fun d => sizes.getD d.1 0)).length := by
    rw [List.length_map]; exact hidx
  rw [sliceWidths_eq_map, List.getD_eq_getElem _ _ hw2, List.getElem_map,
    List.getElem_indexOf hidx]

theorem zip_split_eq_map {α : Type} (n : ℕ) (sizes : List ℕ) (y : List α) :
    (classTuples n sizes).zip (splitWidths (sliceWidths n sizes) y) =
      (classTuples n sizes).map (fun d => (d, sliceOfTuple n sizes y d)) := by
  apply List.ext_getElem
  · rw [List.length_zip, length_splitWidths, sliceWidths_eq_map, List.length_map,
      List.length_map]
    exact Nat.min_self _
  · intro i h1 h2
    rw [List.getElem_zip, List.getElem_map]
    have hlen : i < (classTuples n sizes).length := by
      rw [List.length_map] at h2; exact h2
    congr 1
    unfold sliceOfTuple
    have hsl : i < (splitWidths (sliceWidths n sizes) y).length := by
      rw [length_splitWidths, sliceWidths_eq_map, List.length_map]
      exact hlen
    rw [indexOf_getElem (nodup_classTuples n sizes) i hlen,
      List.getD_eq_getElem _ _ hsl]

theorem sliceOfTuple_flatten {α : Type} (n : ℕ) (sizes : List ℕ)
    (Fv : ℕ × List ℕ → List α)
    (hlen : ∀ d ∈ classTuples n sizes, (Fv d).length = sizes.getD d.1 0)
    {d' : ℕ × List ℕ} (hd' : d' ∈ classTuples n sizes) :
    sliceOfTuple n sizes (((classTuples n sizes).map Fv).flatten) d' = Fv d' := by
  unfold sliceOfTuple
  rw [sliceWidths_eq_map, splitWidths_flatten_map _ _ _ hlen]
  have hidx : @List.indexOf _ instBEqOfDecidableEq d' (classTuples n sizes) <
      (classTuples n sizes).length := List.indexOf_lt_length.2 hd'
  have hw2 : @List.indexOf _ instBEqOfDecidableEq d' (classTuples n sizes) <
      ((classTuples n sizes).map Fv).length := by
    rw [List.length_map]; exact hidx
  rw [List.getD_eq_getElem _ _ hw2, List.getElem_map, List.getElem_indexOf hidx]

theorem permuteSlices_eq_flatten {α : Type} (σ : ℕ → ℕ) (n : ℕ) (sizes : List ℕ)
    (x : List α) :
    permuteSlices σ n sizes x =
      ((classTuples n sizes).map (fun d => sliceOfTuple n sizes x (relabel σ d))).flatten :=
  rfl

theorem permuteSlices_length {α : Type} (σ : ℕ → ℕ) {n : ℕ} {sizes : List ℕ}
    (hσ1 : ∀ a ∈ List.range n, σ a ∈ List.range n)
    (hσ2 : ∀ a ∈ List.range n, ∀ b ∈ List.range n, σ a = σ b → a = b)
    (x : List α) (hx : x.length = widthOf n sizes) :
    (permuteSlices σ n sizes x).length = widthOf n sizes := by
  rw [permuteSlices_eq_flatten, List.length_flatten, List.map_map]
  show ((classTuples n sizes).map _).sum = (sliceWidths n sizes).sum
  rw [sliceWidths_eq_map]
  congr 1
  apply List.map_congr_left
  intro d hd
  show (sliceOfTuple n sizes x (relabel σ d)).length = sizes.getD d.1 0
  rw [sliceOfTuple_length x hx (classTuples_relabel_mem σ hσ1 hσ2 hd)]
  rfl

/-! ### Claim C1: characterizing linear as a structured computation -/

theorem option_bind_pure {α β : Type} (o : Option α) (f : α → β) :
    (do let r ← o; pure (f r) : Option β) = o.map f := by
  cases o <;> rfl

theorem mapM_option_comp {α γ β : Type} (g : γ → α) (f : α → Option β) :
    ∀ l : List γ, (l.map g).mapM f = l.mapM (fun c => f (g c)) := by
  intro l
  induction l with
  | nil => rfl
  | cons c l ih =>
    rw [List.map_cons, List.mapM_cons, List.mapM_cons, ih]

theorem vadd_length {R : Type} [CommRing R] (a b : List R) (h : b.length = a.length) :
    (vadd a b).length = a.length := by
  rw [vadd, List.length_zipWith, h, Nat.min_self]

theorem map_add_const_eq_vadd {R : Type} [CommRing R] :
    ∀ (a : List R) (c : R), a.map (fun ai => ai + c) = vadd a (List.replicate a.length c) := by
  intro a c
  induction a with
  | nil => rfl
  | cons x a ih =>
    show (x + c) :: a.map _ = (x + c) :: vadd a (List.replicate a.length c)
    rw [ih]

theorem stepVec_length {R : Type} [CommRing R] {w : ℕ → List ℤ → List (List R)}
    {m1 L : ℕ} {it : (ℕ × List ℤ) × List R} {u : List R}
    (h : stepVec w m1 L it = some u) : u.length = L := by
  unfold stepVec at h
  cases hmm : matmulVM it.2 (w m1 it.1.2) with
  | none => rw [hmm] at h; cases h
  | some prod =>
    rw [hmm] at h
    simp only [Option.bind_eq_bind, Option.some_bind] at h
    by_cases hL : prod.length = L
    · rw [if_pos hL] at h
      cases h
      exact hL
    · rw [if_neg hL] at h
      by_cases h1 : prod.length = 1
      · rw [if_pos h1] at h
        cases h
        exact List.length_replicate _ _
      · rw [if_neg h1] at h
        cases h

theorem foldl_vadd_length {R : Type} [CommRing R] :
    ∀ (vs : List (List R)) (b : List R), (∀ u ∈ vs, u.length = b.length) →
      (vs.foldl vadd b).length = b.length := by
  intro vs
  induction vs with
  | nil => intro b _; rfl
  | cons u vs ih =>
    intro b h
    rw [List.foldl_cons]
    have hu : (vadd b u).length = b.length := vadd_length b u (h u (by simp))
    rw [ih _ (fun v hv => by rw [hu]; exact h v (by simp [hv])), hu]

theorem sliceValue_length {R : Type} [CommRing R] {w : ℕ → List ℤ → List (List R)}
    {m1 : ℕ} {ps : List ((ℕ × List ℤ) × List R)} {b0 v : List R}
    (h : sliceValue w m1 ps b0 = some v) : v.length = b0.length := by
  unfold sliceValue at h
  cases hmapM : ps.mapM (stepVec w m1 b0.length) with
  | none => rw [hmapM] at h; cases h
  | some vs =>
    rw [hmapM] at h
    obtain ⟨hall, hvs⟩ := mapM_option_some_elim hmapM
    cases h
    apply foldl_vadd_length
    intro u hu
    rw [hvs] at hu
    rcases List.mem_map.1 hu with ⟨p, hp, rfl⟩
    exact stepVec_length (hall p hp)

theorem accumFold_eq {R : Type} [CommRing R] (w : ℕ → List ℤ → List (List R))
    (m1 L : ℕ) :
    ∀ (ps : List ((ℕ × List ℤ) × List R)) (yi : List R), yi.length = L →
      ps.foldlM (fun yi p => do
          let prod ← matmulVM p.2 (w m1 p.1.2)
          vaddCheck yi prod) yi
        = (ps.mapM (stepVec w m1 L)).map (fun vs => vs.foldl vadd yi) := by
  intro ps
  induction ps with
  | nil =>
    intro yi _
    rw [List.foldlM_nil, List.mapM_nil]
    rfl
  | cons p ps ih =>
    intro yi hyi
    simp only [Option.bind_eq_bind] at ih
    rw [List.foldlM_cons, List.mapM_cons]
    show (matmulVM p.2 (w m1 p.1.2) >>= fun prod => vaddCheck yi prod) >>= _ = _
    cases hmm : matmulVM p.2 (w m1 p.1.2) with
    | none =>
      have hsv : stepVec w m1 L p = none := by
        unfold stepVec
        rw [hmm]
        rfl
      rw [hsv]
      rfl
    | some prod =>
      simp only [Option.bind_eq_bind, Option.some_bind]
      by_cases hL : prod.length = L
      · have hvc : vaddCheck yi prod = some (vadd yi prod) := by
          unfold vaddCheck
          rw [if_pos (by rw [hyi, hL])]
        have hsv : stepVec w m1 L p = some prod := by
          unfold stepVec
          rw [hmm]
          simp only [Option.bind_eq_bind, Option.some_bind]
          rw [if_pos hL]
          rfl
        rw [hvc, hsv]
        simp only [Option.bind_eq_bind, Option.some_bind]
        rw [ih (vadd yi prod) (by rw [vadd_length yi prod (by rw [hyi, hL]), hyi])]
        cases hrest : ps.mapM (stepVec w m1 L) with
        | none => rfl
        | some vs => rfl
      · by_cases h1 : prod.length = 1
        · have hne : ¬prod.length = yi.length := by rw [hyi]; exact hL
          have hvc : vaddCheck yi prod =
              some (yi.map (fun ai => ai + prod.headD 0)) := by
            unfold vaddCheck
            rw [if_neg hne, if_pos h1]
          have hsv : stepVec w m1 L p = some (List.replicate L (prod.headD 0)) := by
            unfold stepVec
            rw [hmm]
            simp only [Option.bind_eq_bind, Option.some_bind]
            rw [if_neg hL, if_pos h1]
            rfl
          rw [hvc, hsv]
          simp only [Option.bind_eq_bind, Option.some_bind]
          have hmap : yi.map (fun ai => ai + prod.headD 0) =
              vadd yi (List.replicate L (prod.headD 0)) := by
            rw [map_add_const_eq_vadd, hyi]
          rw [hmap]
          rw [ih (vadd yi (List.replicate L (prod.headD 0)))
            (by rw [vadd_length yi _ (by rw [List.length_replicate, hyi]), hyi])]
          cases hrest : ps.mapM (stepVec w m1 L) with
          | none => rfl
          | some vs => rfl
        · have hne : ¬prod.length = yi.length := by rw [hyi]; exact hL
          have hvc : vaddCheck yi prod = none := by
            unfold vaddCheck
            rw [if_neg hne, if_neg h1]
          have hsv : stepVec w m1 L p = none := by
            unfold stepVec
            rw [hmm]
            simp only [Option.bind_eq_bind, Option.some_bind]
            rw [if_neg hL, if_neg h1]
          rw [hvc, hsv]
          rfl

theorem innerItemsFold_eq {R : Type} [CommRing R] (x : List R)
    (w : ℕ → List ℤ → List (List R)) (ins : List ℕ) (m1 : ℕ) :
    ∀ (items : List (ℕ × List ℤ)) (st : ℕ) (yi : List R),
      st + ((items.map (fun it => ins.getD it.1 0)).sum) ≤ x.length →
      items.foldlM (fun t it => innerBody x w ins m1 it.1 t it.2) (st, yi)
        = ((items.zip (splitWidths (items.map (fun it : ℕ × List ℤ => ins.getD it.1 0))
              (x.drop st))).foldlM
            (fun (yi : List R) (p : (ℕ × List ℤ) × List R) => do
              let prod ← matmulVM p.2 (w m1 p.1.2)
              vaddCheck yi prod) yi).map
          (fun yi2 => (st + (items.map (fun it : ℕ × List ℤ => ins.getD it.1 0)).sum, yi2)) := by
  intro items
  induction items with
  | nil =>
    intro st yi _
    simp [splitWidths]
  | cons it items ih =>
    intro st yi hsum
    simp only [innerBody, Option.bind_eq_bind, Option.pure_def] at ih
    rw [List.map_cons, List.sum_cons] at hsum
    have hnarrow : narrowCheck x st (ins.getD it.1 0) =
        some ((x.drop st).take (ins.getD it.1 0)) := by
      unfold narrowCheck
      rw [if_pos (by omega)]
    simp only [List.foldlM_cons, List.map_cons, List.sum_cons, splitWidths,
      List.zip_cons_cons, innerBody, hnarrow, Option.bind_eq_bind,
      Option.some_bind, Option.pure_def]
    cases hmm : matmulVM ((x.drop st).take (ins.getD it.1 0)) (w m1 it.2) with
    | none => rfl
    | some prod =>
      simp only [Option.bind_eq_bind, Option.some_bind]
      cases hvc : vaddCheck yi prod with
      | none => rfl
      | some yi2 =>
        simp only [Option.bind_eq_bind, Option.some_bind]
        have hih := ih (st + ins.getD it.1 0) yi2 (by omega)
        have hdrop : (x.drop st).drop (ins.getD it.1 0)
            = x.drop (st + ins.getD it.1 0) := by
          rw [List.drop_drop, Nat.add_comm]
        rw [hdrop, hih, Nat.add_assoc]

theorem innerClassFold_eq {R : Type} [CommRing R] (n : ℕ) (x : List R)
    (w : ℕ → List ℤ → List (List R)) (ins : List ℕ) (m1 : ℕ) (t1 : List ℕ)
    (t : ℕ × List R) :
    innerClassFold n x w ins m1 t1 t
      = (inItems n ins t1).foldlM
          (fun t it => innerBody x w ins m1 it.1 t it.2) t := by
  unfold innerClassFold inItems
  rw [foldlM_option_flatMap]
  apply foldlM_option_congr
  intro b m0 _
  by_cases h : ins.getD m0 0 ≠ 0
  · rw [if_pos h, if_pos h, foldlM_option_map]
  · rw [if_neg h, if_neg h]
    rfl

theorem linear_eq_descFold {R : Type} [CommRing R] (n : ℕ) (ins outs : List ℕ)
    (os : ℕ) (x : List R) (w : ℕ → List ℤ → List (List R)) (bias : List R) :
    linear n ins outs os x w bias
      = ((classTuples n outs).foldlM
          (fun s d => outerBody n x w ins outs d.1 s d.2) ((0 : ℕ), bias)).map
        (fun r => r.2) := by
  unfold linear classTuples
  rw [option_bind_pure, foldlM_option_flatMap]
  congr 1
  apply foldlM_option_congr
  intro b m1 _
  by_cases h : outs.getD m1 0 ≠ 0
  · rw [if_pos h, if_pos h, foldlM_option_map]
  · rw [if_neg h, if_neg h]
    rfl

theorem innerBody_length {R : Type} [CommRing R] {x : List R}
    {w : ℕ → List ℤ → List (List R)} {ins : List ℕ} {m1 m0 : ℕ}
    {t t' : ℕ × List R} {perm0 : List ℤ}
    (h : innerBody x w ins m1 m0 t perm0 = some t') : t'.2.length = t.2.length := by
  unfold innerBody at h
  simp only [Option.bind_eq_bind] at h
  cases h1 : narrowCheck x t.1 (ins.getD m0 0) with
  | none => rw [h1] at h; cases h
  | some xj =>
    rw [h1] at h
    simp only [Option.bind_eq_bind, Option.some_bind] at h
    cases h2 : matmulVM xj (w m1 perm0) with
    | none => rw [h2] at h; cases h
    | some prod =>
      rw [h2] at h
      simp only [Option.some_bind] at h
      cases h3 : vaddCheck t.2 prod with
      | none => rw [h3] at h; cases h
      | some yi2 =>
        rw [h3] at h
        simp only [Option.some_bind, Option.pure_def, Option.some.injEq] at h
        have hy : yi2.length = t.2.length := by
          unfold vaddCheck at h3
          by_cases hlen : prod.length = t.2.length
          · rw [if_pos hlen] at h3
            cases h3
            exact vadd_length t.2 prod hlen
          · rw [if_neg hlen] at h3
            by_cases hone : prod.length = 1
            · rw [if_pos hone] at h3
              cases h3
              exact List.length_map _ _
            · rw [if_neg hone] at h3
              cases h3
        rw [← h]
        exact hy

theorem foldlM_innerBody_length {R : Type} [CommRing R] {x : List R}
    {w : ℕ → List ℤ → List (List R)} {ins : List ℕ} {m1 : ℕ} :
    ∀ (items : List (ℕ × List ℤ)) (t t' : ℕ × List R),
      items.foldlM (fun t it => innerBody x w ins m1 it.1 t it.2) t = some t' →
      t'.2.length = t.2.length := by
  intro items
  induction items with
  | nil =>
    intro t t' h
    rw [List.foldlM_nil] at h
    cases h
    rfl
  | cons it items ih =>
    intro t t' h
    rw [List.foldlM_cons] at h
    cases h1 : innerBody x w ins m1 it.1 t it.2 with
    | none => rw [h1] at h; cases h
    | some t1 =>
      rw [h1] at h
      simp only [Option.bind_eq_bind, Option.some_bind] at h
      rw [ih t1 t' h]
      exact innerBody_length h1

theorem innerClassFold_length {R : Type} [CommRing R] {n : ℕ} {x : List R}
    {w : ℕ → List ℤ → List (List R)} {ins : List ℕ} {m1 : ℕ} {t1 : List ℕ}
    {t r : ℕ × List R} (h : innerClassFold n x w ins m1 t1 t = some r) :
    r.2.length = t.2.length := by
  rw [innerClassFold_eq] at h
  exact foldlM_innerBody_length _ _ _ h

theorem inWidths_eq (n : ℕ) (ins : List ℕ) (t1 : List ℕ) :
    (inItems n ins t1).map (fun it : ℕ × List ℤ => ins.getD it.1 0)
      = sliceWidths n ins := by
  rw [sliceWidths_eq_map]
  unfold inItems classTuples
  rw [List.map_flatMap, List.map_flatMap]
  apply flatMap_congr_left
  intro m0 _
  by_cases h : ins.getD m0 0 ≠ 0
  · rw [if_pos h, if_pos h, List.map_map, List.map_map]
    show (permsOf m0 (mask_perm (List.range n) t1)).map (fun _ => ins.getD m0 0)
      = (permsOf m0 (List.range n)).map (fun _ => ins.getD m0 0)
    have hm : mask_perm (List.range n) t1
        = (List.range n).map
            (fun a => if a ∈ t1 then ((@List.indexOf _ instBEqOfDecidableEq a t1 : ℕ) : ℤ)
              else -1) := rfl
    rw [hm, permsOf_map, List.map_map]
    rfl
  · rw [if_neg h, if_neg h]
    rfl

theorem outerFold_eq {R : Type} [CommRing R] (n : ℕ) (x : List R)
    (w : ℕ → List ℤ → List (List R)) (ins outs : List ℕ) :
    ∀ (ds : List (ℕ × List ℕ)) (st : ℕ) (y : List R),
      st + (ds.map (fun d : ℕ × List ℕ => outs.getD d.1 0)).sum ≤ y.length →
      ds.foldlM (fun s d => outerBody n x w ins outs d.1 s d.2) (st, y)
        = ((ds.zip (splitWidths (ds.map (fun d : ℕ × List ℕ => outs.getD d.1 0))
              (y.drop st))).mapM
            (fun (dz : (ℕ × List ℕ) × List R) =>
              (innerClassFold n x w ins dz.1.1 dz.1.2 ((0 : ℕ), dz.2)).map
                (fun r => r.2))).map
          (fun slices =>
            (st + (ds.map (fun d : ℕ × List ℕ => outs.getD d.1 0)).sum,
              y.take st ++ slices.flatten ++ y.drop
                (st + (ds.map (fun d : ℕ × List ℕ => outs.getD d.1 0)).sum))) := by
  intro ds
  induction ds with
  | nil =>
    intro st y _
    rw [List.foldlM_nil]
    rw [show splitWidths (([] : List (ℕ × List ℕ)).map
        (fun d : ℕ × List ℕ => outs.getD d.1 0)) (y.drop st) = ([] : List (List R))
      from rfl]
    rw [List.zip_nil_right, List.mapM_nil]
    simp
  | cons d ds ih =>
    intro st y hsum
    simp only [outerBody, Option.bind_eq_bind, Option.pure_def] at ih
    rw [List.map_cons, List.sum_cons] at hsum
    have hnarrow : narrowCheck y st (outs.getD d.1 0) =
        some ((y.drop st).take (outs.getD d.1 0)) := by
      unfold narrowCheck
      rw [if_pos (by omega)]
    simp only [List.foldlM_cons, List.map_cons, List.sum_cons, splitWidths,
      List.zip_cons_cons, List.mapM_cons, outerBody, hnarrow,
      Option.bind_eq_bind, Option.some_bind, Option.pure_def]
    cases hicf : innerClassFold n x w ins d.1 d.2
        ((0 : ℕ), (y.drop st).take (outs.getD d.1 0)) with
    | none => rfl
    | some r =>
      simp only [Option.some_bind, Option.map_some]
      have hchunk : ((y.drop st).take (outs.getD d.1 0)).length = outs.getD d.1 0 := by
        rw [List.length_take, List.length_drop]
        omega
      have hr2 : r.2.length = outs.getD d.1 0 := by
        rw [innerClassFold_length hicf]
        exact hchunk
      have hpre : (y.take st ++ r.2).length = st + outs.getD d.1 0 := by
        rw [List.length_append, List.length_take, hr2]
        omega
      have hylen : (y.take st ++ r.2 ++ y.drop (st + outs.getD d.1 0)).length
          = y.length := by
        rw [List.length_append, hpre, List.length_drop]
        omega
      have hih := ih (st + outs.getD d.1 0)
        (y.take st ++ r.2 ++ y.drop (st + outs.getD d.1 0))
        (by rw [hylen]; omega)
      have hdrop1 : (y.take st ++ r.2 ++ y.drop (st + outs.getD d.1 0)).drop
          (st + outs.getD d.1 0) = y.drop (st + outs.getD d.1 0) :=
        List.drop_left' hpre
      have htake1 : (y.take st ++ r.2 ++ y.drop (st + outs.getD d.1 0)).take
          (st + outs.getD d.1 0) = y.take st ++ r.2 :=
        List.take_left' hpre
      have hdrop2 : (y.take st ++ r.2 ++ y.drop (st + outs.getD d.1 0)).drop
          (st + outs.getD d.1 0
            + (ds.map (fun d : ℕ × List ℕ => outs.getD d.1 0)).sum)
          = y.drop (st + outs.getD d.1 0
            + (ds.map (fun d : ℕ × List ℕ => outs.getD d.1 0)).sum) := by
        have h2 : (y.take st ++ r.2 ++ y.drop (st + outs.getD d.1 0)).drop
            (st + outs.getD d.1 0
              + (ds.map (fun d : ℕ × List ℕ => outs.getD d.1 0)).sum)
            = ((y.take st ++ r.2 ++ y.drop (st + outs.getD d.1 0)).drop
                (st + outs.getD d.1 0)).drop
              ((ds.map (fun d : ℕ × List ℕ => outs.getD d.1 0)).sum) := by
          rw [List.drop_drop]
        have h3 : y.drop (st + outs.getD d.1 0
              + (ds.map (fun d : ℕ × List ℕ => outs.getD d.1 0)).sum)
            = (y.drop (st + outs.getD d.1 0)).drop
              ((ds.map (fun d : ℕ × List ℕ => outs.getD d.1 0)).sum) := by
          rw [List.drop_drop]
        rw [h2, h3, hdrop1]
      rw [hih, hdrop1, htake1, hdrop2]
      have hdd : (y.drop st).drop (outs.getD d.1 0) = y.drop (st + outs.getD d.1 0) := by
        rw [List.drop_drop]
      rw [hdd]
      cases hrest : (ds.zip (splitWidths
          (ds.map (fun d : ℕ × List ℕ => outs.getD d.1 0))
          (y.drop (st + outs.getD d.1 0)))).mapM
          (fun (dz : (ℕ × List ℕ) × List R) =>
            (innerClassFold n x w ins dz.1.1 dz.1.2 ((0 : ℕ), dz.2)).map
              (fun r => r.2)) with
      | none => rfl
      | some vs =>
        simp [List.flatten_cons, List.append_assoc, Nat.add_assoc]

theorem sliceValue_of_innerClassFold {R : Type} [CommRing R] (n : ℕ) (x : List R)
    (w : ℕ → List ℤ → List (List R)) (ins : List ℕ) (m1 : ℕ) (t1 : List ℕ)
    (b0 : List R) (hx : (sliceWidths n ins).sum ≤ x.length) :
    (innerClassFold n x w ins m1 t1 ((0 : ℕ), b0)).map (fun r => r.2)
      = sliceValue w m1
          ((inItems n ins t1).zip (splitWidths (sliceWidths n ins) x)) b0 := by
  rw [innerClassFold_eq]
  have hsum : (0 : ℕ)
      + ((inItems n ins t1).map (fun it : ℕ × List ℤ => ins.getD it.1 0)).sum
      ≤ x.length := by
    rw [inWidths_eq]
    omega
  rw [innerItemsFold_eq x w ins m1 (inItems n ins t1) 0 b0 hsum]
  rw [List.drop_zero, inWidths_eq]
  unfold sliceValue
  rw [accumFold_eq w m1 b0.length
    ((inItems n ins t1).zip (splitWidths (sliceWidths n ins) x)) b0 rfl]
  cases hm : ((inItems n ins t1).zip (splitWidths (sliceWidths n ins) x)).mapM
      (stepVec w m1 b0.length) with
  | none => rfl
  | some vs => rfl

theorem linear_eq_structured {R : Type} [CommRing R] (n : ℕ) (ins outs : List ℕ)
    (os : ℕ) (x : List R) (w : ℕ → List ℤ → List (List R)) (bias : List R)
    (hx : (sliceWidths n ins).sum ≤ x.length)
    (hb : bias.length = (sliceWidths n outs).sum) :
    linear n ins outs os x w bias = linearStructured n ins outs x w bias := by
  rw [linear_eq_descFold]
  have hws : (classTuples n outs).map (fun d : ℕ × List ℕ => outs.getD d.1 0)
      = sliceWidths n outs := (sliceWidths_eq_map n outs).symm
  rw [outerFold_eq n x w ins outs (classTuples n outs) 0 bias (by rw [hws]; omega)]
  rw [hws, List.drop_zero, List.take_zero]
  unfold linearStructured
  have hcong : ((classTuples n outs).zip
        (splitWidths (sliceWidths n outs) bias)).mapM
      (fun (dz : (ℕ × List ℕ) × List R) =>
        (innerClassFold n x w ins dz.1.1 dz.1.2 ((0 : ℕ), dz.2)).map (fun r => r.2))
      = ((classTuples n outs).zip (splitWidths (sliceWidths n outs) bias)).mapM
        (fun dz => sliceValue w dz.1.1
          ((inItems n ins dz.1.2).zip (splitWidths (sliceWidths n ins) x)) dz.2) :=
    mapM_option_congr
      (fun dz _ => sliceValue_of_innerClassFold n x w ins dz.1.1 dz.1.2 dz.2 hx)
  rw [hcong]
  have hdrop : bias.drop (0 + (sliceWidths n outs).sum) = [] :=
    List.drop_eq_nil_of_le (by omega)
  rw [hdrop]
  cases hm : ((classTuples n outs).zip
      (splitWidths (sliceWidths n outs) bias)).mapM
      (fun dz => sliceValue w dz.1.1
        ((inItems n ins dz.1.2).zip (splitWidths (sliceWidths n ins) x)) dz.2) with
  | none => rfl
  | some vs => simp

theorem inItems_eq (n : ℕ) (ins : List ℕ) (t1 : List ℕ) :
    inItems n ins t1
      = (classTuples n ins).map (fun e : ℕ × List ℕ => (e.1, mask_perm e.2 t1)) := by
  unfold inItems classTuples
  rw [List.map_flatMap]
  apply flatMap_congr_left
  intro m0 _
  by_cases h : ins.getD m0 0 ≠ 0
  · rw [if_pos h, if_pos h]
    have hm : mask_perm (List.range n) t1
        = (List.range n).map
            (fun a => if a ∈ t1 then ((t1.indexOf a : ℕ) : ℤ) else -1) := rfl
    rw [hm, permsOf_map, List.map_map, List.map_map]
    apply List.map_congr_left
    intro t _
    rfl
  · rw [if_neg h, if_neg h]
    rfl

theorem splitWidths_eq_map_slice {α : Type} (n : ℕ) (sizes : List ℕ) (y : List α) :
    splitWidths (sliceWidths n sizes) y
      = (classTuples n sizes).map (fun d => sliceOfTuple n sizes y d) := by
  apply List.ext_getElem
  · rw [length_splitWidths, sliceWidths_eq_map, List.length_map, List.length_map]
  · intro i h1 h2
    rw [List.getElem_map]
    unfold sliceOfTuple
    have hlen : i < (classTuples n sizes).length := by
      rw [List.length_map] at h2
      exact h2
    rw [indexOf_getElem (nodup_classTuples n sizes) i hlen]
    rw [List.getD_eq_getElem _ _ h1]

theorem sliceValue_perm {R : Type} [CommRing R] (w : ℕ → List ℤ → List (List R))
    (m1 : ℕ) {ps ps' : List ((ℕ × List ℤ) × List R)} (h : ps.Perm ps')
    (b0 : List R) : sliceValue w m1 ps b0 = sliceValue w m1 ps' b0 := by
  unfold sliceValue
  cases hm : ps.mapM (stepVec w m1 b0.length) with
  | none =>
    have h2 : ps'.mapM (stepVec w m1 b0.length) = none := by
      rw [mapM_option_none_iff] at hm ⊢
      obtain ⟨a, ha, hfa⟩ := hm
      exact ⟨a, h.mem_iff.1 ha, hfa⟩
    rw [h2]
  | some vs =>
    obtain ⟨hall, hvs⟩ := mapM_option_some_elim hm
    have hall' : ∀ a ∈ ps', stepVec w m1 b0.length a
        = some ((stepVec w m1 b0.length a).getD default) :=
      fun a ha => hall a (h.mem_iff.2 ha)
    have hm' : ps'.mapM (stepVec w m1 b0.length)
        = some (ps'.map (fun a => (stepVec w m1 b0.length a).getD default)) :=
      mapM_option_map hall'
    rw [hm', hvs]
    exact congrArg some
      (foldl_vadd_perm
        (h.map (fun a => (stepVec w m1 b0.length a).getD default)) b0)

theorem sliceValue_permuted_input {R : Type} [CommRing R] (n : ℕ) (ins : List ℕ)
    (x : List R) (w : ℕ → List ℤ → List (List R)) (σ : ℕ → ℕ)
    (hσ1 : ∀ a ∈ List.range n, σ a ∈ List.range n)
    (hσ2 : ∀ a ∈ List.range n, ∀ b ∈ List.range n, σ a = σ b → a = b)
    (hx : x.length = widthOf n ins) (m1 : ℕ) (t1 : List ℕ)
    (ht1 : ∀ a ∈ t1, a < n) (b0 : List R) :
    sliceValue w m1 ((inItems n ins t1).zip
        (splitWidths (sliceWidths n ins) (permuteSlices σ n ins x))) b0
      = sliceValue w m1 ((inItems n ins (t1.map σ)).zip
        (splitWidths (sliceWidths n ins) x)) b0 := by
  have hspσ : splitWidths (sliceWidths n ins) (permuteSlices σ n ins x)
      = (classTuples n ins).map (fun e => sliceOfTuple n ins x (relabel σ e)) := by
    rw [permuteSlices_eq_flatten, sliceWidths_eq_map]
    exact splitWidths_flatten_map _ _ _
      (fun d hd => sliceOfTuple_length x hx (classTuples_relabel_mem σ hσ1 hσ2 hd))
  have hzipσ : (inItems n ins t1).zip
      (splitWidths (sliceWidths n ins) (permuteSlices σ n ins x))
      = (classTuples n ins).map
          (fun e => ((e.1, mask_perm e.2 t1), sliceOfTuple n ins x (relabel σ e))) := by
    rw [inItems_eq, hspσ, List.zip_map']
  have hzip : (inItems n ins (t1.map σ)).zip (splitWidths (sliceWidths n ins) x)
      = (classTuples n ins).map
          (fun e => ((e.1, mask_perm e.2 (t1.map σ)), sliceOfTuple n ins x e)) := by
    rw [inItems_eq, splitWidths_eq_map_slice, List.zip_map']
  rw [hzipσ, hzip]
  have hpt : (classTuples n ins).map
      (fun e => ((e.1, mask_perm e.2 t1), sliceOfTuple n ins x (relabel σ e)))
      = ((classTuples n ins).map (relabel σ)).map
        (fun e => ((e.1, mask_perm e.2 (t1.map σ)), sliceOfTuple n ins x e)) := by
    rw [List.map_map]
    apply List.map_congr_left
    intro e he
    show ((e.1, mask_perm e.2 t1), sliceOfTuple n ins x (relabel σ e))
      = (((relabel σ e).1, mask_perm (relabel σ e).2 (t1.map σ)),
          sliceOfTuple n ins x (relabel σ e))
    have ht0 : ∀ a ∈ e.2, a < n :=
      (mem_permsOf_range.1 (mem_classTuples.1 he).2.2).2.2
    have hm : mask_perm (relabel σ e).2 (t1.map σ) = mask_perm e.2 t1 :=
      mask_perm_map_map σ hσ2 e.2 t1 ht0 ht1
    rw [hm]
    rfl
  rw [hpt]
  exact sliceValue_perm w m1
    ((classTuples_relabel_perm ins σ hσ1 hσ2).map
      (fun e => ((e.1, mask_perm e.2 (t1.map σ)), sliceOfTuple n ins x e))) b0

theorem biasOfClasses_slice {R : Type} [CommRing R] (n : ℕ) (outs : List ℕ)
    (cb : ℕ → List R)
    (hcb : ∀ m ∈ List.range outs.length, (cb m).length = outs.getD m 0)
    {d : ℕ × List ℕ} (hd : d ∈ classTuples n outs) :
    sliceOfTuple n outs (biasOfClasses n outs cb) d = cb d.1 := by
  unfold biasOfClasses
  exact sliceOfTuple_flatten n outs (fun e => cb e.1)
    (fun e he => hcb e.1 (List.mem_range.2 (mem_classTuples.1 he).1)) hd

theorem biasOfClasses_length {R : Type} [CommRing R] (n : ℕ) (outs : List ℕ)
    (cb : ℕ → List R)
    (hcb : ∀ m ∈ List.range outs.length, (cb m).length = outs.getD m 0) :
    (biasOfClasses n outs cb).length = widthOf n outs := by
  unfold biasOfClasses widthOf
  rw [List.length_flatten, List.map_map, sliceWidths_eq_map]
  congr 1
  apply List.map_congr_left
  intro d hd
  exact hcb d.1 (List.mem_range.2 (mem_classTuples.1 hd).1)

theorem mapM_flatten_perm_assemble {R : Type} [CommRing R] (n : ℕ) (outs : List ℕ)
    (σ : ℕ → ℕ)
    (hσ1 : ∀ a ∈ List.range n, σ a ∈ List.range n)
    (hσ2 : ∀ a ∈ List.range n, ∀ b ∈ List.range n, σ a = σ b → a = b)
    (A : ℕ × List ℕ → Option (List R))
    (hAlen : ∀ d ∈ classTuples n outs, ∀ v, A d = some v →
      v.length = outs.getD d.1 0) :
    (((classTuples n outs).map (relabel σ)).mapM A).map List.flatten
      = (((classTuples n outs).mapM A).map List.flatten).map
          (permuteSlices σ n outs) := by
  cases hm : (classTuples n outs).mapM A with
  | none =>
    have h2 : ((classTuples n outs).map (relabel σ)).mapM A = none := by
      rw [mapM_option_none_iff] at hm ⊢
      obtain ⟨d, hd, hAd⟩ := hm
      exact ⟨d, ((classTuples_relabel_perm outs σ hσ1 hσ2).mem_iff).2 hd, hAd⟩
    rw [h2]
    rfl
  | some vs =>
    obtain ⟨hall, hvs⟩ := mapM_option_some_elim hm
    have hall' : ∀ d ∈ (classTuples n outs).map (relabel σ),
        A d = some ((A d).getD default) :=
      fun d hd => hall d (((classTuples_relabel_perm outs σ hσ1 hσ2).mem_iff).1 hd)
    have hm' : ((classTuples n outs).map (relabel σ)).mapM A
        = some (((classTuples n outs).map (relabel σ)).map
            (fun d => (A d).getD default)) :=
      mapM_option_map hall'
    have hlen : ∀ d ∈ classTuples n outs,
        ((A d).getD default).length = outs.getD d.1 0 :=
      fun d hd => hAlen d hd _ (hall d hd)
    rw [hm', hvs]
    exact congrArg some (by
      rw [permuteSlices_eq_flatten, List.map_map]
      congr 1
      apply List.map_congr_left
      intro d hd
      exact (sliceOfTuple_flatten n outs (fun d => (A d).getD default) hlen
        (classTuples_relabel_mem σ hσ1 hσ2 hd)).symm)

theorem linearStructured_eq_descMapM {R : Type} [CommRing R] (n : ℕ)
    (ins outs : List ℕ) (x : List R) (w : ℕ → List ℤ → List (List R))
    (cb : ℕ → List R)
    (hcb : ∀ m ∈ List.range outs.length, (cb m).length = outs.getD m 0) :
    linearStructured n ins outs x w (biasOfClasses n outs cb)
      = ((classTuples n outs).mapM (descValue n ins x w cb)).map List.flatten := by
  unfold linearStructured
  rw [zip_split_eq_map n outs (biasOfClasses n outs cb), mapM_option_comp]
  congr 1
  apply mapM_option_congr
  intro d hd
  show sliceValue w d.1
      ((inItems n ins d.2).zip (splitWidths (sliceWidths n ins) x))
      (sliceOfTuple n outs (biasOfClasses n outs cb) d)
    = descValue n ins x w cb d
  unfold descValue
  rw [biasOfClasses_slice n outs cb hcb hd]

/-- C1: the equivariance of sym_utils.linear.  With the bias assembled from
one shared vector per output arity class (as sym_utils.build_bias lays it
out), applying linear to the σ-permuted input yields exactly the σ-permuted
output of linear on the unpermuted input, for every weight assignment, at
the level of raised-or-returned results: both sides raise together or
return permuted-identical tensors. -/
theorem linear_equivariant {R : Type} [CommRing R] (n : ℕ) (ins outs : List ℕ)
    (os : ℕ) (x : List R) (w : ℕ → List ℤ → List (List R)) (cb : ℕ → List R)
    (σ : ℕ → ℕ)
    (hσ1 : ∀ a ∈ List.range n, σ a ∈ List.range n)
    (hσ2 : ∀ a ∈ List.range n, ∀ b ∈ List.range n, σ a = σ b → a = b)
    (hx : x.length = widthOf n ins)
    (hcb : ∀ m ∈ List.range outs.length, (cb m).length = outs.getD m 0) :
    linear n ins outs os (permuteSlices σ n ins x) w (biasOfClasses n outs cb)
      = (linear n ins outs os x w (biasOfClasses n outs cb)).map
          (permuteSlices σ n outs) := by
  have hxσ : (permuteSlices σ n ins x).length = widthOf n ins :=
    permuteSlices_length σ hσ1 hσ2 x hx
  have hblen : (biasOfClasses n outs cb : List R).length = widthOf n outs :=
    biasOfClasses_length n outs cb hcb
  rw [linear_eq_structured n ins outs os (permuteSlices σ n ins x) w
    (biasOfClasses n outs cb) (by rw [hxσ]; exact le_refl _) hblen]
  rw [linear_eq_structured n ins outs os x w
    (biasOfClasses n outs cb) (by rw [hx]; exact le_refl _) hblen]
  rw [linearStructured_eq_descMapM n ins outs (permuteSlices σ n ins x) w cb hcb]
  rw [linearStructured_eq_descMapM n ins outs x w cb hcb]
  have hσstep : (classTuples n outs).mapM
      (descValue n ins (permuteSlices σ n ins x) w cb)
      = ((classTuples n outs).map (relabel σ)).mapM (descValue n ins x w cb) := by
    rw [mapM_option_comp]
    apply mapM_option_congr
    intro d hd
    have ht2 : ∀ a ∈ d.2, a < n :=
      (mem_permsOf_range.1 (mem_classTuples.1 hd).2.2).2.2
    show sliceValue w d.1 ((inItems n ins d.2).zip
        (splitWidths (sliceWidths n ins) (permuteSlices σ n ins x))) (cb d.1)
      = sliceValue w d.1 ((inItems n ins (d.2.map σ)).zip
        (splitWidths (sliceWidths n ins) x)) (cb d.1)
    exact sliceValue_permuted_input n ins x w σ hσ1 hσ2 hx d.1 d.2 ht2 (cb d.1)
  rw [hσstep]
  exact mapM_flatten_perm_assemble n outs σ hσ1 hσ2 (descValue n ins x w cb)
    (fun d hd v hv => by
      rw [sliceValue_length hv]
      exact hcb d.1 (List.mem_range.2 (mem_classTuples.1 hd).1))

/-- Counterexample to C1 as stated: with an arbitrary full-width bias (as
SymLinear registers, in contrast to build_bias), sym_utils.linear is not
equivariant.  At n = 2 with signatures (0,1) → (0,1), all-zero weights,
zero input and the bias [1, 2], swapping the two agents permutes the input
slices trivially but the output is [1, 2] versus the permuted [2, 1]. -/
theorem linear_equivariance_fails_unshared_bias :
    linear 2 [0, 1] [0, 1] 2
        (permuteSlices swap01 2 [0, 1] ([0, 0] : List ℤ)) zeroWeight11 [1, 2]
      ≠ (linear 2 [0, 1] [0, 1] 2 ([0, 0] : List ℤ) zeroWeight11 [1, 2]).map
          (permuteSlices swap01 2 [0, 1]) := by decide

theorem linear_equivariant_witness :
    (∀ a ∈ List.range 2, swap01 a ∈ List.range 2) ∧
    (∀ a ∈ List.range 2, ∀ b ∈ List.range 2, swap01 a = swap01 b → a = b) ∧
    ([3, 7] : List ℤ).length = widthOf 2 [0, 1] ∧
    (∀ m ∈ List.range ([0, 1] : List ℕ).length,
      (classBias01 m).length = ([0, 1] : List ℕ).getD m 0) ∧
    linear 2 [0, 1] [0, 1] 2 (permuteSlices swap01 2 [0, 1] ([3, 7] : List ℤ))
        someWeight11 (biasOfClasses 2 [0, 1] classBias01)
      = (linear 2 [0, 1] [0, 1] 2 ([3, 7] : List ℤ) someWeight11
          (biasOfClasses 2 [0, 1] classBias01)).map
          (permuteSlices swap01 2 [0, 1]) :=
  ⟨by decide, by decide, by decide, by decide,
    linear_equivariant 2 [0, 1] [0, 1] 2 [3, 7] someWeight11 classBias01 swap01
      (by decide) (by decide) (by decide) (by decide)⟩

theorem unq_permutations_incremental_witness :
    (1 : ℕ) ≤ 2 ∧ (0 : ℕ) < 1 ∧ (1 : ℕ) ≤ 2 ∧
    ((unq_permutations 2 1 1 = incrementalOrbits 2 1 1 ∪ retainedOrbits 2 1 1) ∧
      unq_permutations 2 1 0 = {List.replicate 1 (-1)}) :=
  ⟨by decide, by decide, by decide,
    unq_permutations_incremental 2 1 1 (by decide) (by decide) (by decide)⟩

theorem agent_loss_entry_witness :
    (∀ row ∈ ([[1], [2]] : List (List ℚ)), row.length =
      (([[1], [2]] : List (List ℚ)).headD []).length) ∧
    ([4] : List ℚ).length = (([[1], [2]] : List (List ℚ)).headD []).length ∧
    0 < (([[1], [2]] : List (List ℚ)).headD []).length ∧
    (agent_loss 1 [[1], [2]] [4]).getD 0 0 =
      (([[1], [2]] : List (List ℚ)).map (fun row => huber (row.getD 0 0))).sum +
        (if (0 : ℚ) < 1 then 1 * ([4] : List ℚ).getD 0 0 else 0) :=
  ⟨by decide, by decide, by decide,
    agent_loss_entry 1 [[1], [2]] [4] 0 (by decide) (by decide) (by decide)⟩

end HanabiSAD
